import Mathlib

/-! Rules engine (`rules/engine.go`): shallow embedding and verification.

The embedding follows `src/rules/engine.go` function by function, and the handler
`ServeHTTP` of `src/controllers/controller.go`.

* Go's `map[string]T` is an association list (`GoMap T`); `mapGet` is the
  comma-ok lookup `v, ok := m[k]`, `mapSet` is the assignment `m[k] = v`.
* A `range` over a Go map visits every entry once, in an order the language leaves
  unspecified and that may change from one loop to the next.  `Verify` therefore takes
  the visiting order as an explicit argument, and `MapRange m order` says that `order`
  is an order in which `range m` may visit the entries.
* A run-time panic (failed type assertion, nil dereference) is the `error` case of
  `Except Fault _`.
* Code outside the repository (the `regexp` matcher, the float to int conversion of
  out-of-range values) and the `risk` package, which is not part of the sources at hand,
  are the fields of `Deps`.
-/

namespace Rules

/-! ## Values and Go maps -/

/-- A finite `float64`: the dyadic rational `mant * 2 ^ exp`.  Numbers decoded from JSON
are always finite. -/
structure Float64 where
  mant : Int
  exp : Int

/-- A dynamically typed Go value (`any`) as it occurs in a constraint map: the six shapes
`encoding/json` decodes into, plus the statically typed `int` and `[]string` that the test
fixture `mockRules` stores directly. -/
inductive Value where
  | null
  | bool (b : Bool)
  | float64 (v : Float64)
  | string (s : String)
  | slice (xs : List Value)
  | object (fields : List (String × Value))
  | int (i : Int)
  | stringSlice (xs : List String)

/-- Go `map[string]T`, as an association list. -/
abbrev GoMap (α : Type) := List (String × α)

/-- Comma-ok lookup `v, ok := m[k]`: the first entry stored under `k`. -/
def mapGet {α : Type} : GoMap α → String → Option α
  | [], _ => none
  | (k', v) :: rest, k => if k' = k then some v else mapGet rest k

/-- Assignment `m[k] = v`: replaces the entry under `k`, or adds one. -/
def mapSet {α : Type} : GoMap α → String → α → GoMap α
  | [], k, v => [(k, v)]
  | (k', v') :: rest, k, v =>
    if k' = k then (k, v) :: rest else (k', v') :: mapSet rest k v

/-- The orders in which `for _, x := range m` may visit the entries of `m`: every entry
exactly once, in any order. -/
def MapRange {α : Type} (m : GoMap α) (order : List (String × α)) : Prop :=
  order.Perm m

/-- Type of `map[string]any`, the constraints of one rule. -/
abbrev Constraints := GoMap Value

/-- Type `helpers.ApprovedPhones = map[string]bool`. -/
abbrev ApprovedPhones := GoMap Bool

deriving instance DecidableEq for Except

/-- The run-time panics the engine code can raise. -/
inductive Fault where
  | interfaceConversion
  | nilDereference
  deriving DecidableEq, Repr

/-! ## Constants (`engine.go` lines 15-34) -/

def RuleIncome : String := "Income"
def RuleNoOfCreditCards : String := "NoOfCreditCards"
def RuleAge : String := "Age"
def RulePoliticallyExposed : String := "PoliticallyExposed"
def RulePhone : String := "PhoneLocation"
def RuleMaster : String := "Master"

def minSalaryConstraint : String := "minimum_salary"
def minAgeConstraint : String := "min_age_allowed"
def maxCreditCardsConstraint : String := "max_credit_card_count"
def isExposedConstraint : String := "is_pp_exposed"
def allowedAreaCodesConstraint : String := "allowed_area_codes"
def checkApprovedPhoneConstraint : String := "check_approved_phones"

/-- Type `Status = string`. -/
abbrev Status := String

def StatusApproved : Status := "approved"
def StatusDeclined : Status := "declined"

def allRules : List String :=
  [RuleMaster, RuleIncome, RuleAge, RuleNoOfCreditCards, RulePhone, RulePoliticallyExposed]

/-! ## Collaborators -/

/-- Modelled from the spec: `models.Applicant` (package `models` is not among the sources).
Fields as the engine and its tests use them; `PoliticallyExposed` is a `*bool`, `none`
being the nil pointer. -/
structure Applicant where
  Income : Int
  NumberOfCreditCards : Int
  Age : Int
  PoliticallyExposed : Option Bool
  JobIndustryCode : String
  PhoneNumber : String

/-- Modelled from the spec: `models.RuleInfo` (package `models` is not among the sources):
a rule name and its constraint map. -/
structure RuleInfo where
  Name : String
  Constraints : Constraints

/-- What the engine calls but does not define.
* `CalculateCreditRisk` is `risk.CalculateCreditRisk` (package `risk` is not among the
  sources);
* `MatchString pattern s` is `regexp.MatchString`, `error` for a pattern that does not
  compile;
* `intOfHuge v` is the value of the conversion `int(v)` for a `float64` whose integer part
  does not fit an `int`, which Go leaves to the implementation. -/
structure Deps where
  CalculateCreditRisk : Int → Int → String
  MatchString : String → String → Except String Bool
  intOfHuge : Float64 → Int

/-- The integer part of a finite `float64`, rounding toward zero. -/
def Float64.trunc (v : Float64) : Int :=
  if 0 ≤ v.exp then v.mant * 2 ^ v.exp.toNat else Int.tdiv v.mant (2 ^ (-v.exp).toNat)

/-- The conversion `int(v)` on a 64-bit platform. -/
def toInt (deps : Deps) (v : Float64) : Int :=
  if -(2 ^ 63) ≤ v.trunc ∧ v.trunc < 2 ^ 63 then v.trunc else deps.intOfHuge v

/-! ## Rule evaluators (`engine.go` lines 36-173) -/

structure IncomeRule where
  constraints : Constraints

structure AgeRule where
  constraints : Constraints

structure NoOfCreditCardsRule where
  constraints : Constraints

structure PoliticallyExposedRule where
  constraints : Constraints

structure PhoneLocationRule where
  constraints : Constraints

/-- The `fileManager` field is the one file manager of the engine; the outcome of its
`ListApprovedPhones` is an argument of `Execute`. -/
structure MasterRule where
  constraints : Constraints

/-- The implementations of the interface `ApprovalRule`. -/
inductive ApprovalRule where
  | income (r : IncomeRule)
  | age (r : AgeRule)
  | noOfCreditCards (r : NoOfCreditCardsRule)
  | politicallyExposed (r : PoliticallyExposedRule)
  | phoneLocation (r : PhoneLocationRule)
  | master (r : MasterRule)

structure RuleHandler where
  name : String
  rule : ApprovalRule

def IncomeRule.Execute (deps : Deps) (ir : IncomeRule) (applicant : Applicant) : Bool :=
  let minimumSalary : Int :=
    match mapGet ir.constraints minSalaryConstraint with
    | some (.float64 v) => toInt deps v
    | _ => 100000
  decide (applicant.Income > minimumSalary)

def AgeRule.Execute (deps : Deps) (ar : AgeRule) (applicant : Applicant) : Bool :=
  let minimumAgeRequired : Int :=
    match mapGet ar.constraints minAgeConstraint with
    | some (.float64 v) => toInt deps v
    | _ => 18
  decide (applicant.Age ≥ minimumAgeRequired)

def NoOfCreditCardsRule.Execute (deps : Deps) (cr : NoOfCreditCardsRule)
    (applicant : Applicant) : Bool :=
  let maxCreditCardAllowed : Int :=
    match mapGet cr.constraints maxCreditCardsConstraint with
    | some (.float64 v) => toInt deps v
    | _ => 3
  let creditRisk := deps.CalculateCreditRisk applicant.Age applicant.NumberOfCreditCards
  decide (applicant.NumberOfCreditCards ≤ maxCreditCardAllowed) && decide (creditRisk = "LOW")

/-- The dereference `*applicant.PoliticallyExposed` and the comparison of line 122. -/
def comparePoliticallyExposed (applicant : Applicant) (politicallyExposed : Bool) :
    Except Fault Bool :=
  match applicant.PoliticallyExposed with
  | none => .error .nilDereference
  | some p => .ok (p == politicallyExposed)

def PoliticallyExposedRule.Execute (per : PoliticallyExposedRule) (applicant : Applicant) :
    Except Fault Bool :=
  match mapGet per.constraints isExposedConstraint with
  | none => comparePoliticallyExposed applicant true
  | some (.bool b) => comparePoliticallyExposed applicant b
  | some _ => .error .interfaceConversion

/-- The loop of lines 135-138: `strCodes[i] = v.(string)` for every element, panicking at
the first element that is not a string. -/
def toStrCodes : List Value → Except Fault (List String)
  | [] => .ok []
  | .string s :: rest =>
    match toStrCodes rest with
    | .ok strs => .ok (s :: strs)
    | .error f => .error f
  | _ :: _ => .error .interfaceConversion

/-- Lines 142-148: build the pattern and match the phone number against it. -/
def matchAreaCodes (deps : Deps) (areaCodes : List String) (applicant : Applicant) : Bool :=
  let pattern := "^[" ++ String.join areaCodes ++ "]"
  match deps.MatchString pattern applicant.PhoneNumber with
  | .error _ => false
  | .ok matched => matched

def PhoneLocationRule.Execute (deps : Deps) (plr : PhoneLocationRule) (applicant : Applicant) :
    Except Fault Bool :=
  match mapGet plr.constraints allowedAreaCodesConstraint with
  | none => .ok (matchAreaCodes deps ["0", "2", "5", "8"] applicant)
  | some (.slice codes) =>
    match toStrCodes codes with
    | .error f => .error f
    | .ok strCodes => .ok (matchAreaCodes deps strCodes applicant)
  | some _ => .ok false

/-- Here `phones` is what `bpr.fileManager.ListApprovedPhones()` returns when called. -/
def MasterRule.Execute (phones : Except String ApprovedPhones) (bpr : MasterRule)
    (applicant : Applicant) : Bool :=
  let bypassIfPhoneIsApproved : Bool :=
    match mapGet bpr.constraints checkApprovedPhoneConstraint with
    | some (.bool v) => v
    | _ => true
  if bypassIfPhoneIsApproved then
    match phones with
    | .error _ => false
    | .ok approvedPhones => (mapGet approvedPhones applicant.PhoneNumber).isSome
  else false

/-- Dynamic dispatch of `rule.Execute(ctx, applicant)`. -/
def ApprovalRule.Execute (deps : Deps) (phones : Except String ApprovedPhones) :
    ApprovalRule → Applicant → Except Fault Bool
  | .income r, a => .ok (r.Execute deps a)
  | .age r, a => .ok (r.Execute deps a)
  | .noOfCreditCards r, a => .ok (r.Execute deps a)
  | .politicallyExposed r, a => r.Execute a
  | .phoneLocation r, a => r.Execute deps a
  | .master r, a => .ok (r.Execute phones a)

def RuleHandler.Handle (deps : Deps) (phones : Except String ApprovedPhones)
    (rh : RuleHandler) (applicant : Applicant) : Except Fault Bool :=
  rh.rule.Execute deps phones applicant

/-! ## The engine (`engine.go` lines 67-70, 175-273) -/

/-- The struct `RulesEngine`: the map of non-master handlers and the master handler, a
pointer that is nil (`none`) until a Master rule is added. -/
structure RulesEngine where
  rules : GoMap RuleHandler
  masterRule : Option RuleHandler

def RulesEngine.addRuleHandler (re : RulesEngine) (rule : ApprovalRule) (name : String) :
    RulesEngine :=
  if name = RuleMaster then
    { re with masterRule := some { rule := rule, name := name } }
  else
    { re with rules := mapSet re.rules name { rule := rule, name := name } }

/-- The loop of `Verify` (lines 195-201) over the visiting order `order`.  The first
component lists the handlers whose `Handle` was called, in call order. -/
def verifyLoop (deps : Deps) (phones : Except String ApprovedPhones) (applicant : Applicant) :
    List (String × RuleHandler) → List RuleHandler × Except Fault Status
  | [] => ([], .ok StatusApproved)
  | (_, rule) :: rest =>
    match rule.Handle deps phones applicant with
    | .error f => ([rule], .error f)
    | .ok false => ([rule], .ok StatusDeclined)
    | .ok true =>
      let r := verifyLoop deps phones applicant rest
      (rule :: r.1, r.2)

/-- The method `Verify` together with the list of handlers it called, in call order.
`order` is the order in which `range re.rules` visits the map.  A nil `masterRule` makes
`re.masterRule.Handle` dereference a nil pointer. -/
def RulesEngine.VerifyTrace (deps : Deps) (phones : Except String ApprovedPhones)
    (re : RulesEngine) (applicant : Applicant) (order : List (String × RuleHandler)) :
    List RuleHandler × Except Fault Status :=
  match re.masterRule with
  | none => ([], .error .nilDereference)
  | some master =>
    match master.Handle deps phones applicant with
    | .error f => ([master], .error f)
    | .ok true => ([master], .ok StatusApproved)
    | .ok false =>
      let r := verifyLoop deps phones applicant order
      (master :: r.1, r.2)

/-- The method `Verify` (lines 190-202): the returned `Status`, or the panic. -/
def RulesEngine.Verify (deps : Deps) (phones : Except String ApprovedPhones)
    (re : RulesEngine) (applicant : Applicant) (order : List (String × RuleHandler)) :
    Except Fault Status :=
  (re.VerifyTrace deps phones applicant order).2

/-- The function `createRule` (lines 204-235); the file manager it stores in a `MasterRule`
is left out (see `MasterRule`). -/
def createRule (ruleInfo : RuleInfo) : Except String ApprovalRule :=
  if ruleInfo.Name = RuleIncome then .ok (.income { constraints := ruleInfo.Constraints })
  else if ruleInfo.Name = RuleAge then .ok (.age { constraints := ruleInfo.Constraints })
  else if ruleInfo.Name = RuleNoOfCreditCards then
    .ok (.noOfCreditCards { constraints := ruleInfo.Constraints })
  else if ruleInfo.Name = RulePoliticallyExposed then
    .ok (.politicallyExposed { constraints := ruleInfo.Constraints })
  else if ruleInfo.Name = RulePhone then
    .ok (.phoneLocation { constraints := ruleInfo.Constraints })
  else if ruleInfo.Name = RuleMaster then .ok (.master { constraints := ruleInfo.Constraints })
  else .error "unknow rule"

/-- The loop of `EngineRulesValid` (lines 267-271): `false` when it returns early. -/
def engineRulesLoop (engine : RulesEngine) : List String → Bool
  | [] => true
  | rule :: rest =>
    if (mapGet engine.rules rule).isNone && decide (rule ≠ RuleMaster) then false
    else engineRulesLoop engine rest

def EngineRulesValid (engine : RulesEngine) : Bool :=
  if engineRulesLoop engine allRules then engine.masterRule.isSome else false

/-- One iteration of the loop of `NewRulesEngine` (lines 251-258). -/
def addRuleInfo (rulesEngine : RulesEngine) (ruleInfo : RuleInfo) : RulesEngine :=
  match createRule ruleInfo with
  | .error _ => rulesEngine
  | .ok rule => rulesEngine.addRuleHandler rule ruleInfo.Name

/-- The function `NewRulesEngine` (lines 237-264); `load` is what
`fileManager.LoadRulesFromConfig()` returns. -/
def NewRulesEngine (load : Except String (List RuleInfo)) : Except String RulesEngine :=
  match load with
  | .error err => .error err
  | .ok ruleInfos =>
    if ruleInfos.length = 0 then .error "no rules found, please check rules.json"
    else
      let rulesEngine := ruleInfos.foldl addRuleInfo { rules := [], masterRule := none }
      if !EngineRulesValid rulesEngine then .error "missing rules, please check rules.json"
      else .ok rulesEngine

/-! ## Fixtures -/

/-- A stand-in for the collaborators on the fixtures below: every risk is `LOW`, the
matcher knows the default pattern `^[0258]` only, and huge numbers convert to `0`. -/
def testDeps : Deps where
  CalculateCreditRisk := fun _ _ => "LOW"
  MatchString := fun pattern s =>
    if pattern = "^[0258]" then
      .ok (match s.toList with
        | [] => false
        | c :: _ => c = '0' || c = '2' || c = '5' || c = '8')
    else .error "unsupported pattern"
  intOfHuge := fun _ => 0

/-- The six rules of `mockRules` in `engine_test.go`, with the constraints as JSON would
decode them, except that `PhoneLocation` keeps the default area codes. -/
def sixRules : List RuleInfo :=
  [ { Name := "Master", Constraints := [("check_approved_phones", .bool true)] },
    { Name := "Income", Constraints := [("minimum_salary", .float64 ⟨100000, 0⟩)] },
    { Name := "NoOfCreditCards", Constraints := [("max_credit_card_allowed", .float64 ⟨3, 0⟩)] },
    { Name := "Age", Constraints := [("min_age_allowed", .float64 ⟨18, 0⟩)] },
    { Name := "PoliticallyExposed", Constraints := [("is_pp_exposed", .bool false)] },
    { Name := "PhoneLocation", Constraints := [] } ]

/-- The allowlist of `Test_RulesEngine_Verify`. -/
def oneApprovedPhone : ApprovedPhones := [("501-324-0507", true)]

/-- The applicant of the test "1should be approved, no pre-approved phone". -/
def goodApplicant : Applicant :=
  { Income := 120000, NumberOfCreditCards := 1, Age := 23, PoliticallyExposed := some false,
    JobIndustryCode := "2-930 - Exterior Plants", PhoneNumber := "202-324-0507" }

/-! ## Notions used to state the properties -/

/-- The five rule names `EngineRulesValid` looks up in the map `rules`, in the order the
specification lists them. -/
def requiredRules : List String :=
  [RuleIncome, RuleAge, RuleNoOfCreditCards, RulePoliticallyExposed, RulePhone]

/-- The rule name whose `createRule` case builds this kind of evaluator. -/
def ApprovalRule.kind : ApprovalRule → String
  | .income _ => RuleIncome
  | .age _ => RuleAge
  | .noOfCreditCards _ => RuleNoOfCreditCards
  | .politicallyExposed _ => RulePoliticallyExposed
  | .phoneLocation _ => RulePhone
  | .master _ => RuleMaster

/-- The constraint map an evaluator carries. -/
def ApprovalRule.constraints : ApprovalRule → Constraints
  | .income r => r.constraints
  | .age r => r.constraints
  | .noOfCreditCards r => r.constraints
  | .politicallyExposed r => r.constraints
  | .phoneLocation r => r.constraints
  | .master r => r.constraints

def Value.isNumber : Value → Bool
  | .float64 _ => true
  | _ => false

def Value.isBool : Value → Bool
  | .bool _ => true
  | _ => false

def Value.isString : Value → Bool
  | .string _ => true
  | _ => false

def Value.isStringList : Value → Bool
  | .slice xs => xs.all Value.isString
  | _ => false

/-- The value under `key`, when there is one, has the type `ty`. -/
def hasType (c : Constraints) (key : String) (ty : Value → Bool) : Bool :=
  match mapGet c key with
  | none => true
  | some v => ty v

/-- The override an evaluator reads is well-typed: a JSON number for the three numeric
keys, a boolean for `is_pp_exposed` and `check_approved_phones`, a list of strings for
`allowed_area_codes`. -/
def ApprovalRule.wellTyped : ApprovalRule → Bool
  | .income r => hasType r.constraints minSalaryConstraint Value.isNumber
  | .age r => hasType r.constraints minAgeConstraint Value.isNumber
  | .noOfCreditCards r => hasType r.constraints maxCreditCardsConstraint Value.isNumber
  | .politicallyExposed r => hasType r.constraints isExposedConstraint Value.isBool
  | .phoneLocation r => hasType r.constraints allowedAreaCodesConstraint Value.isStringList
  | .master r => hasType r.constraints checkApprovedPhoneConstraint Value.isBool

/-- Every evaluator of the engine has a well-typed override. -/
def RulesEngine.wellTyped (re : RulesEngine) : Bool :=
  re.rules.all (fun e => e.2.rule.wellTyped) &&
    (match re.masterRule with
     | none => true
     | some master => master.rule.wellTyped)

/-- `InsertsUnknown L L'`: the list `L'` is `L` with definitions of unrecognized names
inserted at any positions. -/
inductive InsertsUnknown : List RuleInfo → List RuleInfo → Prop where
  | nil : InsertsUnknown [] []
  | keep (d : RuleInfo) {L L' : List RuleInfo} :
      InsertsUnknown L L' → InsertsUnknown (d :: L) (d :: L')
  | ins (d : RuleInfo) {L L' : List RuleInfo} :
      d.Name ∉ allRules → InsertsUnknown L L' → InsertsUnknown L (d :: L')

/-- Invariant of the loop of `NewRulesEngine` once the definitions `L` are processed: the
keys of `rules` are distinct required names, every handler is the evaluator of its key built
from a definition of `L`, and every recognized definition of `L` left an evaluator. -/
structure Built (L : List RuleInfo) (re : RulesEngine) : Prop where
  nodup : (re.rules.map Prod.fst).Nodup
  rules : ∀ k h, (k, h) ∈ re.rules →
    k ∈ requiredRules ∧ h.name = k ∧ h.rule.kind = k ∧
      ∃ d ∈ L, d.Name = k ∧ h.rule.constraints = d.Constraints
  master : ∀ m, re.masterRule = some m →
    m.name = RuleMaster ∧ m.rule.kind = RuleMaster ∧
      ∃ d ∈ L, d.Name = RuleMaster ∧ m.rule.constraints = d.Constraints
  present : ∀ d ∈ L, (d.Name ∈ requiredRules → (mapGet re.rules d.Name).isSome = true) ∧
    (d.Name = RuleMaster → re.masterRule.isSome = true)

/-- The handler returns `true` for this applicant. -/
def RuleHandler.passes (deps : Deps) (phones : Except String ApprovedPhones)
    (applicant : Applicant) (rh : RuleHandler) : Bool :=
  match rh.Handle deps phones applicant with
  | .ok true => true
  | _ => false

/-- The entries `NewRulesEngine` stores in the map `rules` for `sixRules`. -/
def sixIncome : String × RuleHandler :=
  ("Income", ⟨"Income", .income ⟨[("minimum_salary", .float64 ⟨100000, 0⟩)]⟩⟩)

def sixCards : String × RuleHandler :=
  ("NoOfCreditCards",
    ⟨"NoOfCreditCards", .noOfCreditCards ⟨[("max_credit_card_allowed", .float64 ⟨3, 0⟩)]⟩⟩)

def sixAge : String × RuleHandler :=
  ("Age", ⟨"Age", .age ⟨[("min_age_allowed", .float64 ⟨18, 0⟩)]⟩⟩)

def sixExposed : String × RuleHandler :=
  ("PoliticallyExposed",
    ⟨"PoliticallyExposed", .politicallyExposed ⟨[("is_pp_exposed", .bool false)]⟩⟩)

def sixPhone : String × RuleHandler :=
  ("PhoneLocation", ⟨"PhoneLocation", .phoneLocation ⟨[]⟩⟩)

/-- The master handler `NewRulesEngine` stores for `sixRules`. -/
def sixMaster : RuleHandler :=
  ⟨"Master", .master ⟨[("check_approved_phones", .bool true)]⟩⟩

/-- The engine `NewRulesEngine` builds from `sixRules`; the non-master handlers are listed
in the order the loop added them. -/
def sixEngine : RulesEngine :=
  { rules := [sixIncome, sixCards, sixAge, sixExposed, sixPhone],
    masterRule := some sixMaster }

/-- As `sixRules`, but the configuration gives `is_pp_exposed` as the string "false"
instead of the boolean. -/
def typoRules : List RuleInfo :=
  [ { Name := "Master", Constraints := [("check_approved_phones", .bool true)] },
    { Name := "Income", Constraints := [("minimum_salary", .float64 ⟨100000, 0⟩)] },
    { Name := "NoOfCreditCards", Constraints := [("max_credit_card_allowed", .float64 ⟨3, 0⟩)] },
    { Name := "Age", Constraints := [("min_age_allowed", .float64 ⟨18, 0⟩)] },
    { Name := "PoliticallyExposed", Constraints := [("is_pp_exposed", .string "false")] },
    { Name := "PhoneLocation", Constraints := [] } ]

/-- The PoliticallyExposed entry `NewRulesEngine` stores for `typoRules`. -/
def typoExposed : String × RuleHandler :=
  ("PoliticallyExposed",
    ⟨"PoliticallyExposed", .politicallyExposed ⟨[("is_pp_exposed", .string "false")]⟩⟩)

/-- The engine `NewRulesEngine` builds from `typoRules`. -/
def typoEngine : RulesEngine :=
  { rules := [sixIncome, sixCards, sixAge, typoExposed, sixPhone],
    masterRule := some sixMaster }

/-- The five non-master definitions of `sixRules`, without the Master definition. -/
def fiveRules : List RuleInfo := sixRules.tail

/-- The definition list of the test "missing rules in config". -/
def incomeOnly : List RuleInfo := [{ Name := RuleIncome, Constraints := [] }]

/-- As `sixRules`, with two definitions of unrecognized names inserted. -/
def sixRulesAndUnknown : List RuleInfo :=
  match sixRules with
  | m :: i :: rest =>
    { Name := "Residence", Constraints := [] } :: m :: i ::
      { Name := "Employer", Constraints := [("minimum_salary", .float64 ⟨1, 0⟩)] } :: rest
  | other => other

/-- The applicant of the test "should be approved, pre-approved phone": the phone number is
in the allowlist, while income and age fail their rules. -/
def preApprovedApplicant : Applicant :=
  { Income := 100000, NumberOfCreditCards := 3, Age := 1, PoliticallyExposed := some false,
    JobIndustryCode := "2-930 - Exterior Plants", PhoneNumber := "501-324-0507" }

/-- An applicant who fails the Income rule only (as `goodApplicant`, with income 90000). -/
def lowIncomeApplicant : Applicant :=
  { goodApplicant with Income := 90000 }

/-- The integer a finite `float64` is equal to, when it is equal to one. -/
def Float64.intValue (v : Float64) : Option Int :=
  if 0 ≤ v.exp then some (v.mant * 2 ^ v.exp.toNat)
  else if (2 ^ (-v.exp).toNat : Int) ∣ v.mant then some (v.mant / 2 ^ (-v.exp).toNat)
  else none

/-- The integer `n` is in the range of the 64-bit Go type `int`. -/
def fitsInt (n : Int) : Prop := -(2 ^ 63) ≤ n ∧ n < 2 ^ 63

instance (n : Int) : Decidable (fitsInt n) := by
  unfold fitsInt
  exact inferInstance

/-- An applicant whose income is exactly the configured minimum of `sixRules`, whose age is
exactly the configured minimum age and who holds exactly the default maximum of cards. -/
def borderlineApplicant : Applicant :=
  { Income := 100000, NumberOfCreditCards := 3, Age := 18, PoliticallyExposed := some false,
    JobIndustryCode := "2-930 - Exterior Plants", PhoneNumber := "202-324-0507" }

/-- A CreditCards evaluator whose configuration raises the maximum to 5. -/
def fiveCards : NoOfCreditCardsRule :=
  ⟨[("max_credit_card_count", .float64 ⟨5, 0⟩)]⟩

/-- The method `MasterRule.Execute` (lines 151-173) together with the number of calls of
`bpr.fileManager.ListApprovedPhones()` it makes. -/
def MasterRule.ExecuteReads (phones : Except String ApprovedPhones) (bpr : MasterRule)
    (applicant : Applicant) : Nat × Bool :=
  let bypassIfPhoneIsApproved : Bool :=
    match mapGet bpr.constraints checkApprovedPhoneConstraint with
    | some (.bool v) => v
    | _ => true
  if bypassIfPhoneIsApproved then
    match phones with
    | .error _ => (1, false)
    | .ok approvedPhones => (1, (mapGet approvedPhones applicant.PhoneNumber).isSome)
  else (0, false)

/-- A PoliticallyExposed evaluator configured with the string "false". -/
def typoExposedRule : PoliticallyExposedRule :=
  ⟨[("is_pp_exposed", .string "false")]⟩

/-- A PhoneLocation evaluator configured with the number 5 among its area codes. -/
def numberCodesRule : PhoneLocationRule :=
  ⟨[("allowed_area_codes", .slice [.string "2", .float64 ⟨5, 0⟩])]⟩

/-- A Master evaluator whose configuration disables the bypass. -/
def bypassOff : MasterRule :=
  ⟨[("check_approved_phones", .bool false)]⟩

/-! ## Go's `regexp` on the patterns the engine builds -/

/-- Characters that have, or can have, a special meaning inside a bracket expression of
Go's regexp syntax: the escape, the closing bracket, the opening bracket (which may start a
named class such as `[:alpha:]`) and the range dash. -/
def classMeta (c : Char) : Bool :=
  c == '\\' || c == ']' || c == '[' || c == '-'

/-- The bracket expression with body `body`, anchored at the start of the text `s`, as the
package `regexp/syntax` parses it: a leading `^` negates the class, every other character
that is not a `classMeta` stands for itself, and a class without any item is a parse error
(`missing closing ]`), here `some none`.  The result is `none` for a body with a `classMeta`
character, which this model does not cover. -/
def bracketItems (body : List Char) (s : String) : Option (Option Bool) :=
  let negated : Bool :=
    match body with
    | '^' :: _ => true
    | _ => false
  let items := if negated then body.tail else body
  if items.any classMeta then none
  else if items.isEmpty then some none
  else
    some (some (match s.toList with
      | [] => false
      | c :: _ => if negated then !items.contains c else items.contains c))

/-- What `regexp.MatchString pattern s` returns for a pattern `^[body]` covered by
`bracketItems`: `some (some b)` for the match result `b`, `some none` for a pattern that
does not compile, `none` for a pattern outside the model.  `^` matches at the start of the
text only, as no multi-line flag is set. -/
def bracketMatch (pattern s : String) : Option (Option Bool) :=
  match pattern.toList with
  | '^' :: '[' :: rest =>
    if rest.getLast? = some ']' then bracketItems rest.dropLast s else none
  | _ => none

/-- The matcher of `deps` behaves as Go's `regexp.MatchString` on the patterns that
`bracketMatch` covers. -/
def RegexpSound (deps : Deps) : Prop :=
  ∀ pattern s,
    (∀ b, bracketMatch pattern s = some (some b) → deps.MatchString pattern s = .ok b) ∧
    (bracketMatch pattern s = some none → ∃ msg, deps.MatchString pattern s = .error msg)

/-- Collaborators whose matcher is `bracketMatch`; the risk scorer and the conversion of
huge numbers are as in `testDeps`. -/
def modelDeps : Deps where
  CalculateCreditRisk := fun _ _ => "LOW"
  MatchString := fun pattern s =>
    match bracketMatch pattern s with
    | some (some b) => .ok b
    | some none => .error "error parsing regexp: missing closing ]"
    | none => .error "pattern outside the model"
  intOfHuge := fun _ => 0

/-- The `allowed_area_codes` value for the single-character strings `codes`, as decoded
from JSON. -/
def codesValue (codes : List Char) : Value :=
  .slice (codes.map (fun c => Value.string (String.singleton c)))

/-- A PhoneLocation evaluator configured with the area codes "^" and "0". -/
def caretCodesRule : PhoneLocationRule :=
  ⟨[("allowed_area_codes", codesValue ['^', '0'])]⟩

/-- A PhoneLocation evaluator configured with the area codes "2" and "7". -/
def twoSevenRule : PhoneLocationRule :=
  ⟨[("allowed_area_codes", codesValue ['2', '7'])]⟩

/-- The value is a `[]any`, the type `PhoneLocationRule.Execute` asserts for
`allowed_area_codes`. -/
def Value.isSlice : Value → Bool
  | .slice _ => true
  | _ => false

/-- A PhoneLocation evaluator configured as in the test fixture `mockRules`: the area
codes are a statically typed `[]string`. -/
def stringSliceRule : PhoneLocationRule :=
  ⟨[("allowed_area_codes", .stringSlice ["0", "2", "5", "8"])]⟩

/-- An allowlist in which the phone number of `preApprovedApplicant` is mapped to false. -/
def falseFlagPhones : ApprovedPhones := [("501-324-0507", false)]

/-- A second Master definition, which disables the bypass. -/
def masterOffInfo : RuleInfo :=
  { Name := "Master", Constraints := [("check_approved_phones", .bool false)] }

/-- A second Income definition, with a minimum salary of 50000. -/
def incomeLowInfo : RuleInfo :=
  { Name := "Income", Constraints := [("minimum_salary", .float64 ⟨50000, 0⟩)] }

/-- The engine `NewRulesEngine` builds from `sixRules` followed by `masterOffInfo` and
`incomeLowInfo`. -/
def repeatedEngine : RulesEngine :=
  { rules :=
      [("Income", ⟨"Income", .income ⟨incomeLowInfo.Constraints⟩⟩), sixCards, sixAge,
        sixExposed, sixPhone],
    masterRule := some ⟨"Master", .master ⟨masterOffInfo.Constraints⟩⟩ }

/-! ## The HTTP handler (`controllers/controller.go`) -/

/-- What the handler writes as the body: the encoded `JSONResponse{Status}` or a plain
text. -/
inductive ResponseBody where
  | json (status : Status)
  | text (s : String)

/-- The response the handler leaves in the `http.ResponseWriter`: the status code, the
`Content-Type` header when the handler sets it, and the body. -/
structure HTTPResponse where
  statusCode : Nat
  contentType : Option String
  body : ResponseBody

/-- The struct `CrediCardApprovalHandler`.  `DBManager phone` is what
`handler.DBManager.AddApprovedPhone(ctx, phone)` returns; the field `FileManager` is not
used by `ServeHTTP`. -/
structure CrediCardApprovalHandler where
  RulesEngine : RulesEngine
  DBManager : String → Except String Unit

def validateInput (applicant : Applicant) : Bool :=
  applicant.PoliticallyExposed.isSome

/-- The method `ServeHTTP` (lines 24-56).  `decoded` is the outcome of decoding the request
body, `method` is `req.Method`, `order` the order in which `Verify` visits the map of
rules.  The first component lists the phone numbers `AddApprovedPhone` was called with; the
second is the response, or the panic of `Verify`. -/
def CrediCardApprovalHandler.ServeHTTP (deps : Deps) (phones : Except String ApprovedPhones)
    (handler : CrediCardApprovalHandler) (decoded : Except String Applicant) (method : String)
    (order : List (String × RuleHandler)) : List String × Except Fault HTTPResponse :=
  match decoded with
  | .error _ => ([], .ok ⟨400, none, .json StatusDeclined⟩)
  | .ok applicant =>
    if !validateInput applicant then ([], .ok ⟨400, none, .json StatusDeclined⟩)
    else if method = "POST" then
      match handler.RulesEngine.Verify deps phones applicant order with
      | .error f => ([], .error f)
      | .ok status =>
        if status ≠ StatusApproved then
          ([], .ok ⟨200, some "application/json", .json StatusDeclined⟩)
        else
          match handler.DBManager applicant.PhoneNumber with
          | .error _ =>
            ([applicant.PhoneNumber], .ok ⟨200, some "application/json", .json StatusApproved⟩)
          | .ok _ =>
            ([applicant.PhoneNumber], .ok ⟨200, some "application/json", .json StatusApproved⟩)
    else ([], .ok ⟨501, none, .text "Not implemented"⟩)

/-- A handler on `sixEngine` whose database is down. -/
def downHandler : CrediCardApprovalHandler :=
  { RulesEngine := sixEngine, DBManager := fun _ => .error "connection refused" }

/-- The `float64` 1e19, that is `5 ^ 19 * 2 ^ 19`: an integer above the largest `int`. -/
def tenToNineteen : Float64 := ⟨19073486328125, 19⟩

/-- Collaborators as in `modelDeps`, with the conversion `int(v)` of a number beyond the
range of `int` as on amd64, where it gives the smallest `int`. -/
def amd64Deps : Deps where
  CalculateCreditRisk := fun _ _ => "LOW"
  MatchString := modelDeps.MatchString
  intOfHuge := fun _ => -(2 ^ 63)

/-- An Income evaluator configured with the minimum salary 1e19. -/
def hugeIncomeRule : IncomeRule :=
  ⟨[("minimum_salary", .float64 tenToNineteen)]⟩

/-- An Age evaluator configured with the minimum age 1e19. -/
def hugeAgeRule : AgeRule :=
  ⟨[("min_age_allowed", .float64 tenToNineteen)]⟩

/-- A CreditCards evaluator configured with the maximum 1e19. -/
def hugeCardsRule : NoOfCreditCardsRule :=
  ⟨[("max_credit_card_count", .float64 tenToNineteen)]⟩

/-- An applicant with income 1, age 5 and 2 credit cards. -/
def smallApplicant : Applicant :=
  { Income := 1, NumberOfCreditCards := 2, Age := 5, PoliticallyExposed := some false,
    JobIndustryCode := "2-930 - Exterior Plants", PhoneNumber := "202-324-0507" }

/-! ## Go maps -/

theorem mapGet_mapSet_self {α : Type} (m : GoMap α) (k : String) (v : α) :
    mapGet (mapSet m k v) k = some v := by
  induction m with
  | nil => simp [mapSet, mapGet]
  | cons e rest ih =>
    obtain ⟨k', v'⟩ := e
    by_cases h : k' = k
    · simp [mapSet, mapGet, h]
    · simp [mapSet, mapGet, h, ih]

theorem mapGet_mapSet_ne {α : Type} (m : GoMap α) (k k₀ : String) (v : α) (hne : k ≠ k₀) :
    mapGet (mapSet m k v) k₀ = mapGet m k₀ := by
  induction m with
  | nil => simp [mapSet, mapGet, hne]
  | cons e rest ih =>
    obtain ⟨k', v'⟩ := e
    by_cases h : k' = k
    · subst h
      simp [mapSet, mapGet, hne]
    · by_cases h₀ : k' = k₀
      · subst h₀
        simp [mapSet, mapGet, h]
      · simp [mapSet, mapGet, h, h₀, ih]

theorem mem_mapSet {α : Type} {m : GoMap α} {k : String} {v : α} {e : String × α}
    (he : e ∈ mapSet m k v) : e = (k, v) ∨ e ∈ m := by
  induction m with
  | nil => simpa [mapSet] using he
  | cons e' rest ih =>
    obtain ⟨k', v'⟩ := e'
    by_cases h : k' = k
    · simp only [mapSet, h, if_true, List.mem_cons] at he
      rcases he with he | he
      · exact Or.inl he
      · exact Or.inr (List.mem_cons_of_mem _ he)
    · simp only [mapSet, h, if_false, List.mem_cons] at he
      rcases he with he | he
      · exact Or.inr (he ▸ List.mem_cons_self _ _)
      · rcases ih he with h' | h'
        · exact Or.inl h'
        · exact Or.inr (List.mem_cons_of_mem _ h')

theorem keys_mapSet_subset {α : Type} (m : GoMap α) (k : String) (v : α) (k₀ : String)
    (h : k₀ ∈ (mapSet m k v).map Prod.fst) : k₀ = k ∨ k₀ ∈ m.map Prod.fst := by
  obtain ⟨e, he, rfl⟩ := List.mem_map.1 h
  rcases mem_mapSet he with h' | h'
  · exact Or.inl (by rw [h'])
  · exact Or.inr (List.mem_map.2 ⟨e, h', rfl⟩)

theorem nodup_keys_mapSet {α : Type} (m : GoMap α) (k : String) (v : α)
    (hnd : (m.map Prod.fst).Nodup) : ((mapSet m k v).map Prod.fst).Nodup := by
  induction m with
  | nil => simp [mapSet]
  | cons e rest ih =>
    obtain ⟨k', v'⟩ := e
    simp only [List.map_cons, List.nodup_cons] at hnd
    by_cases h : k' = k
    · subst h
      simpa [mapSet] using hnd
    · simp only [mapSet, h, if_false, List.map_cons, List.nodup_cons]
      refine ⟨fun hmem => ?_, ih hnd.2⟩
      rcases keys_mapSet_subset rest k v k' hmem with h' | h'
      · exact h h'
      · exact hnd.1 h'

theorem mapGet_of_mem {α : Type} {m : GoMap α} {k : String} {v : α}
    (hnd : (m.map Prod.fst).Nodup) (h : (k, v) ∈ m) : mapGet m k = some v := by
  induction m with
  | nil => simp at h
  | cons e rest ih =>
    obtain ⟨k', v'⟩ := e
    simp only [List.map_cons, List.nodup_cons] at hnd
    simp only [List.mem_cons, Prod.mk.injEq] at h
    rcases h with ⟨rfl, rfl⟩ | h
    · simp [mapGet]
    · have hne : k' ≠ k := fun hk => hnd.1 (hk ▸ List.mem_map.2 ⟨(k, v), h, rfl⟩)
      simp [mapGet, hne, ih hnd.2 h]

theorem mem_of_mapGet {α : Type} {m : GoMap α} {k : String} {v : α}
    (h : mapGet m k = some v) : (k, v) ∈ m := by
  induction m with
  | nil => simp [mapGet] at h
  | cons e rest ih =>
    obtain ⟨k', v'⟩ := e
    by_cases hk : k' = k
    · subst hk
      simp only [mapGet, if_true, Option.some.injEq] at h
      simp [h]
    · simp only [mapGet, hk, if_false] at h
      exact List.mem_cons_of_mem _ (ih h)

theorem mapGet_eq_none_iff {α : Type} (m : GoMap α) (k : String) :
    mapGet m k = none ↔ k ∉ m.map Prod.fst := by
  induction m with
  | nil => simp [mapGet]
  | cons e rest ih =>
    obtain ⟨k', v'⟩ := e
    by_cases hk : k' = k
    · simp [mapGet, hk]
    · simp only [mapGet, hk, if_false, ih, List.map_cons, List.mem_cons]
      constructor
      · rintro h (h' | h')
        · exact hk h'.symm
        · exact h h'
      · exact fun h h' => h (Or.inr h')

/-! ## Construction -/

theorem mem_allRules_iff (n : String) :
    n ∈ allRules ↔ n = RuleMaster ∨ n ∈ requiredRules := by
  simp only [allRules, requiredRules, List.mem_cons, List.mem_singleton, List.not_mem_nil,
    or_false]
  tauto

theorem master_not_required : RuleMaster ∉ requiredRules := by decide

theorem createRule_ok {d : RuleInfo} {r : ApprovalRule} (h : createRule d = .ok r) :
    r.kind = d.Name ∧ r.constraints = d.Constraints ∧ d.Name ∈ allRules := by
  unfold createRule at h
  split_ifs at h with h1 h2 h3 h4 h5 h6 <;> simp only [Except.ok.injEq, reduceCtorEq] at h <;>
    subst h <;> simp [ApprovalRule.kind, ApprovalRule.constraints, allRules, *]

theorem createRule_known {d : RuleInfo} (h : d.Name ∈ allRules) : ∃ r, createRule d = .ok r := by
  simp only [allRules, List.mem_cons, List.mem_singleton, List.not_mem_nil, or_false] at h
  unfold createRule
  split_ifs <;> first | exact ⟨_, rfl⟩ | (exfalso; tauto)

theorem createRule_unknown {d : RuleInfo} (h : d.Name ∉ allRules) :
    createRule d = .error "unknow rule" := by
  simp only [allRules, List.mem_cons, List.mem_singleton, List.not_mem_nil, or_false,
    not_or] at h
  unfold createRule
  simp [h]

theorem addRuleInfo_unknown (e : RulesEngine) {d : RuleInfo} (h : d.Name ∉ allRules) :
    addRuleInfo e d = e := by
  simp [addRuleInfo, createRule_unknown h]

theorem built_nil : Built [] { rules := [], masterRule := none } where
  nodup := by simp
  rules := by simp
  master := by simp
  present := by simp

theorem built_step {L : List RuleInfo} {e : RulesEngine} (hb : Built L e) (d : RuleInfo) :
    Built (L ++ [d]) (addRuleInfo e d) := by
  by_cases hk : d.Name ∈ allRules
  · obtain ⟨r, hr⟩ := createRule_known hk
    obtain ⟨hkind, hcons, -⟩ := createRule_ok hr
    by_cases hm : d.Name = RuleMaster
    · -- the definition replaces the master handler
      have hadd : addRuleInfo e d = { e with masterRule := some { rule := r, name := d.Name } } := by
        simp [addRuleInfo, hr, RulesEngine.addRuleHandler, hm]
      rw [hadd]
      refine ⟨hb.nodup, ?_, ?_, ?_⟩
      · intro k h hmem
        obtain ⟨h1, h2, h3, d', hd', h4⟩ := hb.rules k h hmem
        exact ⟨h1, h2, h3, d', List.mem_append_left _ hd', h4⟩
      · intro m hmeq
        simp only [Option.some.injEq] at hmeq
        subst hmeq
        exact ⟨hm, hkind.trans hm, d, by simp, hm, hcons⟩
      · intro d' hd'
        refine ⟨fun hreq => ?_, fun _ => rfl⟩
        rcases List.mem_append.1 hd' with h' | h'
        · exact (hb.present d' h').1 hreq
        · simp only [List.mem_singleton] at h'
          subst h'
          exact absurd (hm ▸ hreq) master_not_required
    · -- the definition sets the handler stored under its name
      have hreq : d.Name ∈ requiredRules := ((mem_allRules_iff _).1 hk).resolve_left hm
      have hadd : addRuleInfo e d =
          { e with rules := mapSet e.rules d.Name { rule := r, name := d.Name } } := by
        simp [addRuleInfo, hr, RulesEngine.addRuleHandler, hm]
      rw [hadd]
      refine ⟨nodup_keys_mapSet _ _ _ hb.nodup, ?_, ?_, ?_⟩
      · intro k h hmem
        rcases mem_mapSet hmem with h' | h'
        · simp only [Prod.mk.injEq] at h'
          obtain ⟨rfl, rfl⟩ := h'
          exact ⟨hreq, rfl, hkind, d, by simp, rfl, hcons⟩
        · obtain ⟨h1, h2, h3, d', hd', h4⟩ := hb.rules k h h'
          exact ⟨h1, h2, h3, d', List.mem_append_left _ hd', h4⟩
      · intro m hmeq
        obtain ⟨h1, h2, d', hd', h3⟩ := hb.master m hmeq
        exact ⟨h1, h2, d', List.mem_append_left _ hd', h3⟩
      · intro d' hd'
        rcases List.mem_append.1 hd' with h' | h'
        · refine ⟨fun hreq' => ?_, (hb.present d' h').2⟩
          by_cases hsame : d.Name = d'.Name
          · show (mapGet (mapSet e.rules d.Name _) d'.Name).isSome = true
            rw [← hsame, mapGet_mapSet_self]; rfl
          · show (mapGet (mapSet e.rules d.Name _) d'.Name).isSome = true
            rw [mapGet_mapSet_ne _ _ _ _ hsame]
            exact (hb.present d' h').1 hreq'
        · simp only [List.mem_singleton] at h'
          subst h'
          refine ⟨fun _ => ?_, fun h'' => absurd h'' hm⟩
          show (mapGet (mapSet e.rules d'.Name _) d'.Name).isSome = true
          rw [mapGet_mapSet_self]; rfl
  · rw [addRuleInfo_unknown e hk]
    refine ⟨hb.nodup, ?_, ?_, ?_⟩
    · intro k h hmem
      obtain ⟨h1, h2, h3, d', hd', h4⟩ := hb.rules k h hmem
      exact ⟨h1, h2, h3, d', List.mem_append_left _ hd', h4⟩
    · intro m hmeq
      obtain ⟨h1, h2, d', hd', h3⟩ := hb.master m hmeq
      exact ⟨h1, h2, d', List.mem_append_left _ hd', h3⟩
    · intro d' hd'
      rcases List.mem_append.1 hd' with h' | h'
      · exact hb.present d' h'
      · simp only [List.mem_singleton] at h'
        subst h'
        exact ⟨fun h'' => absurd ((mem_allRules_iff _).2 (Or.inr h'')) hk,
          fun h'' => absurd ((mem_allRules_iff _).2 (Or.inl h'')) hk⟩

/-- The loop of `NewRulesEngine` establishes `Built`. -/
theorem built_foldl (L : List RuleInfo) :
    Built L (L.foldl addRuleInfo { rules := [], masterRule := none }) := by
  induction L using List.reverseRecOn with
  | nil => exact built_nil
  | append_singleton L d ih =>
    rw [List.foldl_append]
    exact built_step ih d

theorem engineRulesValid_iff (re : RulesEngine) :
    EngineRulesValid re = true ↔
      (∀ k ∈ requiredRules, (mapGet re.rules k).isSome = true) ∧ re.masterRule.isSome = true := by
  have hI : RuleIncome ≠ RuleMaster := by decide
  have hA : RuleAge ≠ RuleMaster := by decide
  have hC : RuleNoOfCreditCards ≠ RuleMaster := by decide
  have hP : RulePhone ≠ RuleMaster := by decide
  have hE : RulePoliticallyExposed ≠ RuleMaster := by decide
  simp only [EngineRulesValid, engineRulesLoop, allRules, requiredRules, List.mem_cons,
    List.mem_singleton, List.not_mem_nil, or_false, forall_eq_or_imp, forall_eq, ne_eq,
    not_true_eq_false, decide_False, Bool.and_false, Bool.false_eq_true, if_false, hI, hA, hC,
    hP, hE, not_false_eq_true, decide_True, Bool.and_true]
  cases mapGet re.rules RuleIncome <;> cases mapGet re.rules RuleAge <;>
    cases mapGet re.rules RuleNoOfCreditCards <;> cases mapGet re.rules RulePhone <;>
    cases mapGet re.rules RulePoliticallyExposed <;> simp

theorem newRulesEngine_ok_iff (load : Except String (List RuleInfo)) (re : RulesEngine) :
    NewRulesEngine load = .ok re ↔
      ∃ L, load = .ok L ∧ L ≠ [] ∧
        re = L.foldl addRuleInfo { rules := [], masterRule := none } ∧
        EngineRulesValid re = true := by
  cases load with
  | error err => simp [NewRulesEngine]
  | ok L =>
    by_cases hL : L = []
    · subst hL
      simp [NewRulesEngine]
    · have hlen : ¬ L.length = 0 := fun h => hL (List.length_eq_zero.1 h)
      by_cases hv : EngineRulesValid (L.foldl addRuleInfo { rules := [], masterRule := none })
      · simp only [NewRulesEngine, hlen, if_false, hv, Bool.not_true, Bool.false_eq_true,
          Except.ok.injEq]
        constructor
        · rintro rfl
          exact ⟨L, rfl, hL, rfl, hv⟩
        · rintro ⟨L', h1, -, h2, -⟩
          rw [h2, h1]
      · simp only [NewRulesEngine, hlen, if_false, hv, Bool.not_false, if_true, reduceCtorEq,
          false_iff]
        rintro ⟨L', h1, -, h2, h3⟩
        simp only [Except.ok.injEq] at h1
        subst h1
        rw [h2] at h3
        exact hv h3

/-- The keys of the map of a valid engine built by the loop are the five required names. -/
theorem keys_perm_of_built {L : List RuleInfo} {re : RulesEngine} (hb : Built L re)
    (hv : EngineRulesValid re = true) : (re.rules.map Prod.fst).Perm requiredRules := by
  rw [List.perm_ext_iff_of_nodup hb.nodup (by decide)]
  intro k
  constructor
  · intro hk
    obtain ⟨e, he, rfl⟩ := List.mem_map.1 hk
    exact (hb.rules e.1 e.2 he).1
  · intro hk
    have h := ((engineRulesValid_iff re).1 hv).1 k hk
    by_contra hnot
    rw [(mapGet_eq_none_iff _ _).2 hnot] at h
    simp at h

/-! ## Evaluation -/

theorem passes_iff (deps : Deps) (phones : Except String ApprovedPhones) (applicant : Applicant)
    (rh : RuleHandler) :
    rh.passes deps phones applicant = true ↔ rh.Handle deps phones applicant = .ok true := by
  unfold RuleHandler.passes
  split <;> simp_all

theorem toStrCodes_ok (xs : List Value) (h : xs.all Value.isString = true) :
    ∃ strs, toStrCodes xs = .ok strs := by
  induction xs with
  | nil => exact ⟨[], rfl⟩
  | cons x rest ih =>
    simp only [List.all_cons, Bool.and_eq_true] at h
    obtain ⟨strs, hs⟩ := ih h.2
    cases x <;> simp [Value.isString] at h
    rename_i s
    exact ⟨s :: strs, by simp [toStrCodes, hs]⟩

/-- An evaluator whose override is well-typed returns a boolean for every applicant whose
`PoliticallyExposed` is not nil. -/
theorem handle_ok_of_wellTyped (deps : Deps) (phones : Except String ApprovedPhones)
    (applicant : Applicant) (rh : RuleHandler) (hw : rh.rule.wellTyped = true)
    (hpe : applicant.PoliticallyExposed.isSome = true) :
    ∃ b, rh.Handle deps phones applicant = .ok b := by
  obtain ⟨p, hp⟩ := Option.isSome_iff_exists.1 hpe
  obtain ⟨name, rule⟩ := rh
  cases rule with
  | income r => exact ⟨_, rfl⟩
  | age r => exact ⟨_, rfl⟩
  | noOfCreditCards r => exact ⟨_, rfl⟩
  | master r => exact ⟨_, rfl⟩
  | politicallyExposed r =>
    simp only [ApprovalRule.wellTyped, hasType] at hw
    simp only [RuleHandler.Handle, ApprovalRule.Execute, PoliticallyExposedRule.Execute]
    cases hget : mapGet r.constraints isExposedConstraint with
    | none => simp [comparePoliticallyExposed, hp]
    | some v =>
      rw [hget] at hw
      cases v <;> simp [Value.isBool] at hw
      simp [comparePoliticallyExposed, hp]
  | phoneLocation r =>
    simp only [ApprovalRule.wellTyped, hasType] at hw
    simp only [RuleHandler.Handle, ApprovalRule.Execute, PhoneLocationRule.Execute]
    cases hget : mapGet r.constraints allowedAreaCodesConstraint with
    | none => simp
    | some v =>
      rw [hget] at hw
      cases v <;> simp [Value.isStringList] at hw
      rename_i xs
      obtain ⟨strs, hs⟩ := toStrCodes_ok xs (by simpa [List.all_eq_true] using hw)
      simp [hs]

/-- While the visited handlers return `true` the loop goes on. -/
theorem verifyLoop_append (deps : Deps) (phones : Except String ApprovedPhones)
    (applicant : Applicant) (pre rest : List (String × RuleHandler))
    (hpre : ∀ e ∈ pre, e.2.Handle deps phones applicant = .ok true) :
    verifyLoop deps phones applicant (pre ++ rest) =
      (pre.map Prod.snd ++ (verifyLoop deps phones applicant rest).1,
        (verifyLoop deps phones applicant rest).2) := by
  induction pre with
  | nil => simp
  | cons e pre ih =>
    obtain ⟨k, h⟩ := e
    have hh : h.Handle deps phones applicant = .ok true := hpre (k, h) (List.mem_cons_self _ _)
    have ih' := ih (fun e he => hpre e (List.mem_cons_of_mem _ he))
    simp [verifyLoop, hh, ih']

/-- The handlers called by the loop are an initial segment of the visiting order. -/
theorem verifyLoop_trace_isPrefix (deps : Deps) (phones : Except String ApprovedPhones)
    (applicant : Applicant) (order : List (String × RuleHandler)) :
    (verifyLoop deps phones applicant order).1 <+: order.map Prod.snd := by
  induction order with
  | nil => simp [verifyLoop]
  | cons e rest ih =>
    obtain ⟨k, h⟩ := e
    simp only [verifyLoop, List.map_cons]
    split
    · exact List.prefix_iff_eq_take.2 (by simp)
    · exact List.prefix_iff_eq_take.2 (by simp)
    · exact (List.prefix_cons_inj h).2 ih

/-- When no visited handler panics, the loop declines exactly when some handler fails. -/
theorem verifyLoop_result (deps : Deps) (phones : Except String ApprovedPhones)
    (applicant : Applicant) (order : List (String × RuleHandler))
    (hok : ∀ e ∈ order, ∃ b, e.2.Handle deps phones applicant = .ok b) :
    (verifyLoop deps phones applicant order).2 =
      .ok (if order.all (fun e => e.2.passes deps phones applicant) then StatusApproved
           else StatusDeclined) := by
  induction order with
  | nil => simp [verifyLoop]
  | cons e rest ih =>
    obtain ⟨k, h⟩ := e
    obtain ⟨b, hb⟩ := hok (k, h) (List.mem_cons_self _ _)
    have ih' := ih (fun e he => hok e (List.mem_cons_of_mem _ he))
    cases b with
    | true =>
      have hp : h.passes deps phones applicant = true := (passes_iff _ _ _ _).2 hb
      have hb' : h.Handle deps phones applicant = .ok true := hb
      simp only [verifyLoop, hb', ih', List.all_cons, hp, Bool.true_and]
    | false =>
      have hb' : h.Handle deps phones applicant = .ok false := hb
      have hp : h.passes deps phones applicant = false := by
        simp [RuleHandler.passes, hb']
      simp [verifyLoop, hb', hp]

theorem passes_of_handle {deps : Deps} {phones : Except String ApprovedPhones}
    {applicant : Applicant} {rh : RuleHandler} {b : Bool}
    (h : rh.Handle deps phones applicant = .ok b) : rh.passes deps phones applicant = b := by
  cases b <;> simp [RuleHandler.passes, h]

/-- On an engine built by `NewRulesEngine`, all visited handlers pass exactly when the five
handlers stored under the required names pass, whatever the visiting order. -/
theorem all_passes_eq {L : List RuleInfo} {re : RulesEngine} (hb : Built L re)
    (deps : Deps) (phones : Except String ApprovedPhones) (applicant : Applicant)
    {order : List (String × RuleHandler)} (horder : MapRange re.rules order)
    {hI hA hC hP hL : RuleHandler}
    (gI : mapGet re.rules RuleIncome = some hI) (gA : mapGet re.rules RuleAge = some hA)
    (gC : mapGet re.rules RuleNoOfCreditCards = some hC)
    (gP : mapGet re.rules RulePoliticallyExposed = some hP)
    (gL : mapGet re.rules RulePhone = some hL) :
    order.all (fun e => e.2.passes deps phones applicant) =
      (hI.passes deps phones applicant && (hA.passes deps phones applicant &&
        (hC.passes deps phones applicant && (hP.passes deps phones applicant &&
          hL.passes deps phones applicant)))) := by
  rw [Bool.eq_iff_iff]
  simp only [List.all_eq_true, Bool.and_eq_true]
  constructor
  · intro h
    have hmem : ∀ k rh, mapGet re.rules k = some rh → rh.passes deps phones applicant = true :=
      fun k rh hg => h (k, rh) ((List.Perm.mem_iff horder).2 (mem_of_mapGet hg))
    exact ⟨hmem _ _ gI, hmem _ _ gA, hmem _ _ gC, hmem _ _ gP, hmem _ _ gL⟩
  · rintro ⟨pI, pA, pC, pP, pL⟩ ⟨k, rh⟩ he
    have he' : (k, rh) ∈ re.rules := (List.Perm.mem_iff horder).1 he
    have hget := mapGet_of_mem hb.nodup he'
    have hk := (hb.rules k rh he').1
    simp only [requiredRules, List.mem_cons, List.mem_singleton, List.not_mem_nil,
      or_false] at hk
    rcases hk with rfl | rfl | rfl | rfl | rfl
    · rw [gI] at hget; cases hget; exact pI
    · rw [gA] at hget; cases hget; exact pA
    · rw [gC] at hget; cases hget; exact pC
    · rw [gP] at hget; cases hget; exact pP
    · rw [gL] at hget; cases hget; exact pL

theorem wellTyped_of_mem {re : RulesEngine} (h : re.wellTyped = true) {e : String × RuleHandler}
    (he : e ∈ re.rules) : e.2.rule.wellTyped = true := by
  simp only [RulesEngine.wellTyped, Bool.and_eq_true, List.all_eq_true] at h
  exact h.1 e he

theorem wellTyped_master {re : RulesEngine} (h : re.wellTyped = true) {m : RuleHandler}
    (hm : re.masterRule = some m) : m.rule.wellTyped = true := by
  simp only [RulesEngine.wellTyped, Bool.and_eq_true, hm] at h
  exact h.2

/-! ## The claims -/

/-- C1: on every engine returned by `NewRulesEngine` whose overrides are well-typed, for
every outcome of the allowlist read, every applicant whose `PoliticallyExposed` is present
and every order in which the map of rules is visited, the Master evaluator and the five
evaluators stored under Income, Age, NoOfCreditCards, PoliticallyExposed and PhoneLocation
each return a boolean, and `Verify` returns "approved" if Master returns true or all five
return true, and "declined" in every other case. -/
theorem verify_approved_iff (deps : Deps) (load : Except String (List RuleInfo))
    (re : RulesEngine) (phones : Except String ApprovedPhones) (applicant : Applicant)
    (order : List (String × RuleHandler))
    (hnew : NewRulesEngine load = .ok re) (htyped : re.wellTyped = true)
    (hpe : applicant.PoliticallyExposed.isSome = true) (horder : MapRange re.rules order) :
    ∃ (hM hI hA hC hP hL : RuleHandler) (m i a c p l : Bool),
      (re.masterRule = some hM ∧ hM.rule.kind = RuleMaster ∧
        hM.Handle deps phones applicant = .ok m) ∧
      (mapGet re.rules RuleIncome = some hI ∧ hI.rule.kind = RuleIncome ∧
        hI.Handle deps phones applicant = .ok i) ∧
      (mapGet re.rules RuleAge = some hA ∧ hA.rule.kind = RuleAge ∧
        hA.Handle deps phones applicant = .ok a) ∧
      (mapGet re.rules RuleNoOfCreditCards = some hC ∧ hC.rule.kind = RuleNoOfCreditCards ∧
        hC.Handle deps phones applicant = .ok c) ∧
      (mapGet re.rules RulePoliticallyExposed = some hP ∧
        hP.rule.kind = RulePoliticallyExposed ∧ hP.Handle deps phones applicant = .ok p) ∧
      (mapGet re.rules RulePhone = some hL ∧ hL.rule.kind = RulePhone ∧
        hL.Handle deps phones applicant = .ok l) ∧
      re.Verify deps phones applicant order =
        .ok (if m || (i && (a && (c && (p && l)))) then StatusApproved else StatusDeclined) := by
  obtain ⟨L, -, -, hre, hv⟩ := (newRulesEngine_ok_iff load re).1 hnew
  have hb : Built L re := hre ▸ built_foldl L
  obtain ⟨hreq, hmaster⟩ := (engineRulesValid_iff re).1 hv
  obtain ⟨hM, gM⟩ := Option.isSome_iff_exists.1 hmaster
  have get : ∀ k ∈ requiredRules, ∃ rh b, mapGet re.rules k = some rh ∧ rh.rule.kind = k ∧
      rh.Handle deps phones applicant = .ok b := by
    intro k hk
    obtain ⟨rh, hg⟩ := Option.isSome_iff_exists.1 (hreq k hk)
    have hmem := mem_of_mapGet hg
    obtain ⟨b, hb'⟩ := handle_ok_of_wellTyped deps phones applicant rh
      (wellTyped_of_mem htyped hmem) hpe
    exact ⟨rh, b, hg, (hb.rules k rh hmem).2.2.1, hb'⟩
  obtain ⟨hI, i, gI, kI, eI⟩ := get RuleIncome (by decide)
  obtain ⟨hA, a, gA, kA, eA⟩ := get RuleAge (by decide)
  obtain ⟨hC, c, gC, kC, eC⟩ := get RuleNoOfCreditCards (by decide)
  obtain ⟨hP, p, gP, kP, eP⟩ := get RulePoliticallyExposed (by decide)
  obtain ⟨hL, l, gL, kL, eL⟩ := get RulePhone (by decide)
  obtain ⟨m, eM⟩ := handle_ok_of_wellTyped deps phones applicant hM
    (wellTyped_master htyped gM) hpe
  refine ⟨hM, hI, hA, hC, hP, hL, m, i, a, c, p, l, ⟨gM, (hb.master hM gM).2.1, eM⟩,
    ⟨gI, kI, eI⟩, ⟨gA, kA, eA⟩, ⟨gC, kC, eC⟩, ⟨gP, kP, eP⟩, ⟨gL, kL, eL⟩, ?_⟩
  cases m with
  | true => simp [RulesEngine.Verify, RulesEngine.VerifyTrace, gM, eM]
  | false =>
    have hok : ∀ e ∈ order, ∃ b, e.2.Handle deps phones applicant = .ok b := fun e he =>
      handle_ok_of_wellTyped deps phones applicant e.2
        (wellTyped_of_mem htyped ((List.Perm.mem_iff horder).1 he)) hpe
    simp only [RulesEngine.Verify, RulesEngine.VerifyTrace, gM, eM,
      verifyLoop_result deps phones applicant order hok,
      all_passes_eq hb deps phones applicant horder gI gA gC gP gL, passes_of_handle eI,
      passes_of_handle eA, passes_of_handle eC, passes_of_handle eP, passes_of_handle eL,
      Bool.false_or]

theorem verify_approved_iff_witness :
    NewRulesEngine (.ok sixRules) = .ok sixEngine ∧ sixEngine.wellTyped = true ∧
      goodApplicant.PoliticallyExposed.isSome = true ∧
      MapRange sixEngine.rules sixEngine.rules.reverse ∧
      ∃ (hM hI hA hC hP hL : RuleHandler) (m i a c p l : Bool),
        (sixEngine.masterRule = some hM ∧ hM.rule.kind = RuleMaster ∧
          hM.Handle testDeps (.ok oneApprovedPhone) goodApplicant = .ok m) ∧
        (mapGet sixEngine.rules RuleIncome = some hI ∧ hI.rule.kind = RuleIncome ∧
          hI.Handle testDeps (.ok oneApprovedPhone) goodApplicant = .ok i) ∧
        (mapGet sixEngine.rules RuleAge = some hA ∧ hA.rule.kind = RuleAge ∧
          hA.Handle testDeps (.ok oneApprovedPhone) goodApplicant = .ok a) ∧
        (mapGet sixEngine.rules RuleNoOfCreditCards = some hC ∧
          hC.rule.kind = RuleNoOfCreditCards ∧
          hC.Handle testDeps (.ok oneApprovedPhone) goodApplicant = .ok c) ∧
        (mapGet sixEngine.rules RulePoliticallyExposed = some hP ∧
          hP.rule.kind = RulePoliticallyExposed ∧
          hP.Handle testDeps (.ok oneApprovedPhone) goodApplicant = .ok p) ∧
        (mapGet sixEngine.rules RulePhone = some hL ∧ hL.rule.kind = RulePhone ∧
          hL.Handle testDeps (.ok oneApprovedPhone) goodApplicant = .ok l) ∧
        sixEngine.Verify testDeps (.ok oneApprovedPhone) goodApplicant sixEngine.rules.reverse =
          .ok (if m || (i && (a && (c && (p && l)))) then StatusApproved else StatusDeclined) :=
  ⟨rfl, rfl, rfl, List.reverse_perm _,
    verify_approved_iff testDeps (.ok sixRules) sixEngine (.ok oneApprovedPhone) goodApplicant
      sixEngine.rules.reverse rfl rfl rfl (List.reverse_perm _)⟩

theorem handle_master_frame (deps : Deps) (phones : Except String ApprovedPhones)
    (applicant : Applicant) (rh : RuleHandler) (hkind : rh.rule.kind = RuleMaster)
    (income cards age : Int) :
    rh.Handle deps phones
        { applicant with Income := income, NumberOfCreditCards := cards, Age := age } =
      rh.Handle deps phones applicant := by
  obtain ⟨name, rule⟩ := rh
  cases rule <;> first | rfl | exact absurd hkind (by simp [ApprovalRule.kind]; decide)

/-- C2: whenever the Master evaluator returns true, `Verify` returns "approved" and the
only handler called is the master one; for a handler of the Master kind this holds whatever
the applicant's income, card count and age are. -/
theorem master_bypass (deps : Deps) (phones : Except String ApprovedPhones) (re : RulesEngine)
    (applicant : Applicant) (order : List (String × RuleHandler)) (hM : RuleHandler)
    (hmaster : re.masterRule = some hM)
    (htrue : hM.Handle deps phones applicant = .ok true) :
    re.VerifyTrace deps phones applicant order = ([hM], .ok StatusApproved) ∧
      (hM.rule.kind = RuleMaster → ∀ income cards age : Int,
        re.VerifyTrace deps phones
            { applicant with Income := income, NumberOfCreditCards := cards, Age := age }
            order = ([hM], .ok StatusApproved)) := by
  refine ⟨by simp [RulesEngine.VerifyTrace, hmaster, htrue], fun hkind income cards age => ?_⟩
  have h := handle_master_frame deps phones applicant hM hkind income cards age
  simp only [RulesEngine.VerifyTrace, hmaster]
  rw [h, htrue]

theorem master_bypass_witness :
    sixEngine.masterRule = some sixMaster ∧
      sixMaster.Handle testDeps (.ok oneApprovedPhone) preApprovedApplicant = .ok true ∧
      sixEngine.Verify testDeps (.ok oneApprovedPhone) preApprovedApplicant sixEngine.rules =
        .ok StatusApproved :=
  ⟨rfl, rfl, congrArg Prod.snd
    (master_bypass testDeps (.ok oneApprovedPhone) sixEngine preApprovedApplicant
      sixEngine.rules sixMaster rfl rfl).1⟩

/-- C5: when the Master evaluator returns false and the map of rules is visited in the
order `pre ++ k :: post`, where every handler of `pre` returns true and `k` returns false,
`Verify` returns "declined" having called the master handler, the handlers of `pre` and
`k`, and none of the handlers of `post`. -/
theorem declined_at_first_failure (deps : Deps) (phones : Except String ApprovedPhones)
    (re : RulesEngine) (applicant : Applicant) (hM : RuleHandler)
    (pre post : List (String × RuleHandler)) (k : String × RuleHandler)
    (hmaster : re.masterRule = some hM)
    (hfalse : hM.Handle deps phones applicant = .ok false)
    (_horder : MapRange re.rules (pre ++ k :: post))
    (hpre : ∀ e ∈ pre, e.2.Handle deps phones applicant = .ok true)
    (hk : k.2.Handle deps phones applicant = .ok false) :
    re.VerifyTrace deps phones applicant (pre ++ k :: post) =
      (hM :: (pre.map Prod.snd ++ [k.2]), .ok StatusDeclined) := by
  obtain ⟨name, rh⟩ := k
  have hk' : rh.Handle deps phones applicant = .ok false := hk
  simp [RulesEngine.VerifyTrace, hmaster, hfalse,
    verifyLoop_append deps phones applicant pre _ hpre, verifyLoop, hk']

theorem declined_at_first_failure_witness :
    sixEngine.masterRule = some sixMaster ∧
      sixMaster.Handle testDeps (.ok oneApprovedPhone) lowIncomeApplicant = .ok false ∧
      MapRange sixEngine.rules ([sixExposed] ++ sixIncome :: [sixCards, sixAge, sixPhone]) ∧
      sixIncome.2.Handle testDeps (.ok oneApprovedPhone) lowIncomeApplicant = .ok false ∧
      sixEngine.VerifyTrace testDeps (.ok oneApprovedPhone) lowIncomeApplicant
          ([sixExposed] ++ sixIncome :: [sixCards, sixAge, sixPhone]) =
        ([sixMaster, sixExposed.2, sixIncome.2], .ok StatusDeclined) :=
  have hperm : MapRange sixEngine.rules ([sixExposed] ++ sixIncome :: [sixCards, sixAge, sixPhone]) :=
    (@List.perm_middle _ sixExposed [sixIncome, sixCards, sixAge] [sixPhone]).symm
  ⟨rfl, rfl, hperm, rfl,
    declined_at_first_failure testDeps (.ok oneApprovedPhone) sixEngine lowIncomeApplicant
      sixMaster [sixExposed] [sixCards, sixAge, sixPhone] sixIncome rfl rfl hperm
      (fun e he => by rw [List.mem_singleton.1 he]; rfl) rfl⟩

/-- C3 (the code departs from it): on the engine built from `typoRules`, whose
`is_pp_exposed` is a string, and the applicant `lowIncomeApplicant`, a call of `Verify`
that visits Income first returns "declined", while a call that visits PoliticallyExposed
first panics at the unchecked assertion `c.(bool)`; this holds whatever the collaborators
return. -/
theorem verify_depends_on_order (deps : Deps) :
    NewRulesEngine (.ok typoRules) = .ok typoEngine ∧
      MapRange typoEngine.rules [sixIncome, sixCards, sixAge, typoExposed, sixPhone] ∧
      MapRange typoEngine.rules [typoExposed, sixIncome, sixCards, sixAge, sixPhone] ∧
      typoEngine.Verify deps (.ok oneApprovedPhone) lowIncomeApplicant
          [sixIncome, sixCards, sixAge, typoExposed, sixPhone] = .ok StatusDeclined ∧
      typoEngine.Verify deps (.ok oneApprovedPhone) lowIncomeApplicant
          [typoExposed, sixIncome, sixCards, sixAge, sixPhone] = .error .interfaceConversion :=
  ⟨rfl, List.Perm.refl _,
    (@List.perm_middle _ typoExposed [sixIncome, sixCards, sixAge] [sixPhone]).symm,
    rfl, rfl⟩

/-- C4 (as stated, refuted): the same engine and applicant, with the Master evaluator
returning false, evaluate the five evaluators in the order Income, NoOfCreditCards, Age,
PoliticallyExposed, PhoneLocation in one call and in the reverse order in another; both are
orders in which the map of rules can be visited, and neither is the declaration order. -/
theorem verify_order_not_fixed :
    MapRange sixEngine.rules sixEngine.rules ∧
      MapRange sixEngine.rules sixEngine.rules.reverse ∧
      sixMaster.Handle testDeps (.ok oneApprovedPhone) goodApplicant = .ok false ∧
      (sixEngine.VerifyTrace testDeps (.ok oneApprovedPhone) goodApplicant
          sixEngine.rules).1.map RuleHandler.name =
        ["Master", "Income", "NoOfCreditCards", "Age", "PoliticallyExposed", "PhoneLocation"] ∧
      (sixEngine.VerifyTrace testDeps (.ok oneApprovedPhone) goodApplicant
          sixEngine.rules.reverse).1.map RuleHandler.name =
        ["Master", "PhoneLocation", "PoliticallyExposed", "Age", "NoOfCreditCards", "Income"] :=
  ⟨List.Perm.refl _, List.reverse_perm _, rfl, rfl, rfl⟩

/-- C4 (amended): when the Master evaluator returns false, `Verify` calls the master
handler and then the non-master handlers in the order in which the map of rules is visited,
whichever order that is: the handlers called are an initial segment of that order, and all
of it when every handler returns true. -/
theorem verify_visits_in_map_order (deps : Deps) (phones : Except String ApprovedPhones)
    (re : RulesEngine) (applicant : Applicant) (order : List (String × RuleHandler))
    (hM : RuleHandler) (hmaster : re.masterRule = some hM)
    (hfalse : hM.Handle deps phones applicant = .ok false)
    (_horder : MapRange re.rules order) :
    ∃ visited, (re.VerifyTrace deps phones applicant order).1 = hM :: visited ∧
      visited <+: order.map Prod.snd ∧
      ((∀ e ∈ order, e.2.Handle deps phones applicant = .ok true) →
        visited = order.map Prod.snd) := by
  refine ⟨(verifyLoop deps phones applicant order).1, ?_,
    verifyLoop_trace_isPrefix deps phones applicant order, fun hall => ?_⟩
  · simp [RulesEngine.VerifyTrace, hmaster, hfalse]
  · have h := verifyLoop_append deps phones applicant order [] hall
    rw [List.append_nil] at h
    rw [h]
    simp [verifyLoop]

theorem verify_visits_in_map_order_witness :
    sixEngine.masterRule = some sixMaster ∧
      sixMaster.Handle testDeps (.ok oneApprovedPhone) goodApplicant = .ok false ∧
      MapRange sixEngine.rules sixEngine.rules.reverse ∧
      ∃ visited, (sixEngine.VerifyTrace testDeps (.ok oneApprovedPhone) goodApplicant
          sixEngine.rules.reverse).1 = sixMaster :: visited ∧
        visited <+: sixEngine.rules.reverse.map Prod.snd ∧
        ((∀ e ∈ sixEngine.rules.reverse,
            e.2.Handle testDeps (.ok oneApprovedPhone) goodApplicant = .ok true) →
          visited = sixEngine.rules.reverse.map Prod.snd) :=
  ⟨rfl, rfl, List.reverse_perm _,
    verify_visits_in_map_order testDeps (.ok oneApprovedPhone) sixEngine goodApplicant
      sixEngine.rules.reverse sixMaster rfl rfl (List.reverse_perm _)⟩

/-- A panic of one handler, the others returning true, makes the loop panic in every
visiting order. -/
theorem verifyLoop_panics (deps : Deps) (phones : Except String ApprovedPhones)
    (applicant : Applicant) (f : Fault) (order : List (String × RuleHandler))
    (hall : ∀ e ∈ order, e.2.Handle deps phones applicant = .ok true ∨
      e.2.Handle deps phones applicant = .error f)
    (hsome : ∃ e ∈ order, e.2.Handle deps phones applicant = .error f) :
    (verifyLoop deps phones applicant order).2 = .error f := by
  induction order with
  | nil => simp at hsome
  | cons e rest ih =>
    obtain ⟨k, h⟩ := e
    rcases hall (k, h) (List.mem_cons_self _ _) with hh | hh
    · have hh' : h.Handle deps phones applicant = .ok true := hh
      obtain ⟨e', he', hpanic⟩ := hsome
      rcases List.mem_cons.1 he' with rfl | hmem
      · rw [hh] at hpanic; cases hpanic
      · simp only [verifyLoop, hh']
        exact ih (fun e he => hall e (List.mem_cons_of_mem _ he)) ⟨e', hmem, hpanic⟩
    · have hh' : h.Handle deps phones applicant = .error f := hh
      simp [verifyLoop, hh']

/-- C6 (the code departs from it): `NewRulesEngine` succeeds on `typoRules`, whose
`is_pp_exposed` is a string, and for the applicant `goodApplicant`, whose
`PoliticallyExposed` is present and who passes the four other rules, `Verify` panics at
the unchecked assertion `c.(bool)` in every order in which the map of rules is visited.
The PhoneLocation evaluator panics likewise on the area codes `[5]`. -/
theorem verify_panics_on_typo (deps : Deps)
    (hrisk : deps.CalculateCreditRisk 23 1 = "LOW")
    (hmatch : deps.MatchString "^[0258]" "202-324-0507" = .ok true)
    (order : List (String × RuleHandler)) (horder : MapRange typoEngine.rules order) :
    NewRulesEngine (.ok typoRules) = .ok typoEngine ∧
      goodApplicant.PoliticallyExposed.isSome = true ∧
      typoEngine.Verify deps (.ok oneApprovedPhone) goodApplicant order =
        .error .interfaceConversion ∧
      PhoneLocationRule.Execute deps ⟨[("allowed_area_codes", .slice [.float64 ⟨5, 0⟩])]⟩
        goodApplicant = .error .interfaceConversion := by
  refine ⟨rfl, rfl, ?_, rfl⟩
  have hI : sixIncome.2.Handle deps (.ok oneApprovedPhone) goodApplicant = .ok true := rfl
  have hA : sixAge.2.Handle deps (.ok oneApprovedPhone) goodApplicant = .ok true := rfl
  have hC : sixCards.2.Handle deps (.ok oneApprovedPhone) goodApplicant = .ok true := by
    have h : deps.CalculateCreditRisk goodApplicant.Age goodApplicant.NumberOfCreditCards =
        "LOW" := hrisk
    simp only [RuleHandler.Handle, sixCards, ApprovalRule.Execute, NoOfCreditCardsRule.Execute,
      h]
    rfl
  have hL : sixPhone.2.Handle deps (.ok oneApprovedPhone) goodApplicant = .ok true := by
    have h : deps.MatchString ("^[" ++ String.join ["0", "2", "5", "8"] ++ "]")
        goodApplicant.PhoneNumber = .ok true := hmatch
    simp only [RuleHandler.Handle, sixPhone, ApprovalRule.Execute, PhoneLocationRule.Execute,
      mapGet, matchAreaCodes, h]
  have hP : typoExposed.2.Handle deps (.ok oneApprovedPhone) goodApplicant =
      .error .interfaceConversion := rfl
  have hloop := verifyLoop_panics deps (.ok oneApprovedPhone) goodApplicant
    .interfaceConversion order
    (fun e he => by
      have hmem : e ∈ typoEngine.rules := (List.Perm.mem_iff horder).1 he
      simp only [typoEngine, List.mem_cons, List.mem_singleton, List.not_mem_nil,
        or_false] at hmem
      rcases hmem with rfl | rfl | rfl | rfl | rfl
      · exact Or.inl hI
      · exact Or.inl hC
      · exact Or.inl hA
      · exact Or.inr hP
      · exact Or.inl hL)
    ⟨typoExposed, (List.Perm.mem_iff horder).2 (by simp [typoEngine]), hP⟩
  have hM : sixMaster.Handle deps (.ok oneApprovedPhone) goodApplicant = .ok false := rfl
  simp only [RulesEngine.Verify, RulesEngine.VerifyTrace, typoEngine, hM]
  exact hloop

theorem verify_panics_on_typo_witness :
    testDeps.CalculateCreditRisk 23 1 = "LOW" ∧
      testDeps.MatchString "^[0258]" "202-324-0507" = .ok true ∧
      MapRange typoEngine.rules typoEngine.rules ∧
      typoEngine.Verify testDeps (.ok oneApprovedPhone) goodApplicant typoEngine.rules =
        .error .interfaceConversion :=
  ⟨rfl, rfl, List.Perm.refl _,
    (verify_panics_on_typo testDeps rfl rfl typoEngine.rules (List.Perm.refl _)).2.2.1⟩

/-! ## Construction claims -/

theorem newRulesEngine_invalid {L : List RuleInfo} (hne : L ≠ [])
    (hv : EngineRulesValid (L.foldl addRuleInfo { rules := [], masterRule := none }) = false) :
    NewRulesEngine (.ok L) = .error "missing rules, please check rules.json" := by
  have hlen : ¬ L.length = 0 := fun h => hne (List.length_eq_zero.1 h)
  simp [NewRulesEngine, hlen, hv]

theorem newRulesEngine_valid {L : List RuleInfo} (hne : L ≠ [])
    (hv : EngineRulesValid (L.foldl addRuleInfo { rules := [], masterRule := none }) = true) :
    NewRulesEngine (.ok L) = .ok (L.foldl addRuleInfo { rules := [], masterRule := none }) := by
  have hlen : ¬ L.length = 0 := fun h => hne (List.length_eq_zero.1 h)
  simp [NewRulesEngine, hlen, hv]

/-- C7 (as stated, refuted): the list `fiveRules` has a definition for each of the five
required names and none for Master, and `NewRulesEngine` returns the error "missing rules,
please check rules.json" on it. -/
theorem master_not_optional :
    (∀ n ∈ requiredRules, ∃ d ∈ fiveRules, d.Name = n) ∧
      (∀ d ∈ fiveRules, d.Name ≠ RuleMaster) ∧
      NewRulesEngine (.ok fiveRules) = .error "missing rules, please check rules.json" := by
  refine ⟨?_, ?_, rfl⟩
  · decide
  · decide

/-- C7 (amended): Master is required at construction: on every definition list that has a
definition for each of Income, Age, NoOfCreditCards, PoliticallyExposed and PhoneLocation
but none for Master, `NewRulesEngine` returns no engine and the error "missing rules,
please check rules.json". -/
theorem master_required (L : List RuleInfo)
    (hfive : ∀ n ∈ requiredRules, ∃ d ∈ L, d.Name = n)
    (hnomaster : ∀ d ∈ L, d.Name ≠ RuleMaster) :
    NewRulesEngine (.ok L) = .error "missing rules, please check rules.json" := by
  have hne : L ≠ [] := by
    obtain ⟨d, hd, -⟩ := hfive RuleIncome (by decide)
    exact List.ne_nil_of_mem hd
  refine newRulesEngine_invalid hne ?_
  have hb := built_foldl L
  cases hv : EngineRulesValid (L.foldl addRuleInfo { rules := [], masterRule := none }) with
  | false => rfl
  | true =>
    obtain ⟨-, hm⟩ := (engineRulesValid_iff _).1 hv
    obtain ⟨m, hm'⟩ := Option.isSome_iff_exists.1 hm
    obtain ⟨-, -, d, hd, hname, -⟩ := hb.master m hm'
    exact absurd hname (hnomaster d hd)

theorem master_required_witness :
    (∀ n ∈ requiredRules, ∃ d ∈ fiveRules, d.Name = n) ∧
      (∀ d ∈ fiveRules, d.Name ≠ RuleMaster) ∧
      NewRulesEngine (.ok fiveRules) = .error "missing rules, please check rules.json" :=
  ⟨by decide, by decide, master_required fiveRules (by decide) (by decide)⟩

/-- C8: `NewRulesEngine` returns a load error unchanged; on the empty definition list it
returns the error "no rules found, please check rules.json"; on a non-empty list that lacks
a definition for one of the five required names it returns the error "missing rules, please
check rules.json".  In each case no engine is returned. -/
theorem newRulesEngine_errors :
    (∀ err : String, NewRulesEngine (.error err) = .error err) ∧
      NewRulesEngine (.ok []) = .error "no rules found, please check rules.json" ∧
      ∀ L : List RuleInfo, L ≠ [] → (∃ n ∈ requiredRules, ∀ d ∈ L, d.Name ≠ n) →
        NewRulesEngine (.ok L) = .error "missing rules, please check rules.json" := by
  refine ⟨fun err => rfl, rfl, fun L hne ⟨n, hn, hmissing⟩ => ?_⟩
  refine newRulesEngine_invalid hne ?_
  have hb := built_foldl L
  cases hv : EngineRulesValid (L.foldl addRuleInfo { rules := [], masterRule := none }) with
  | false => rfl
  | true =>
    obtain ⟨hreq, -⟩ := (engineRulesValid_iff _).1 hv
    obtain ⟨rh, hget⟩ := Option.isSome_iff_exists.1 (hreq n hn)
    obtain ⟨-, -, -, d, hd, hname, -⟩ := hb.rules n rh (mem_of_mapGet hget)
    exact absurd hname (hmissing d hd)

theorem newRulesEngine_errors_witness :
    NewRulesEngine (.error "failed to load config") = .error "failed to load config" ∧
      incomeOnly ≠ [] ∧ (∃ n ∈ requiredRules, ∀ d ∈ incomeOnly, d.Name ≠ n) ∧
      NewRulesEngine (.ok incomeOnly) = .error "missing rules, please check rules.json" :=
  ⟨newRulesEngine_errors.1 _, by simp [incomeOnly], ⟨RuleAge, by decide, by decide⟩,
    newRulesEngine_errors.2.2 incomeOnly (by simp [incomeOnly])
      ⟨RuleAge, by decide, by decide⟩⟩

theorem foldl_insertsUnknown {L L' : List RuleInfo} (h : InsertsUnknown L L')
    (e : RulesEngine) : L'.foldl addRuleInfo e = L.foldl addRuleInfo e := by
  induction h generalizing e with
  | nil => rfl
  | keep d _ ih => simp only [List.foldl_cons, ih]
  | ins d hd _ ih => simp only [List.foldl_cons, addRuleInfo_unknown e hd, ih]

theorem insertsUnknown_nil {L' : List RuleInfo} (h : InsertsUnknown [] L') :
    ∀ d ∈ L', d.Name ∉ allRules := by
  generalize hL : ([] : List RuleInfo) = L at h
  induction h with
  | nil => simp
  | keep d _ _ => cases hL
  | ins d hd _ ih =>
    intro d' hd'
    rcases List.mem_cons.1 hd' with rfl | hmem
    · exact hd
    · exact ih hL d' hmem

/-- C9: when `L'` is `L` with definitions of unrecognized names inserted at any positions,
`NewRulesEngine` returns an engine on `L` exactly when it returns one on `L'`, and the two
engines are equal: the same map of handlers and the same master handler, with the same
constraints. -/
theorem unknown_rules_ignored (L L' : List RuleInfo) (h : InsertsUnknown L L') :
    ((∃ re, NewRulesEngine (.ok L) = .ok re) ↔ (∃ re, NewRulesEngine (.ok L') = .ok re)) ∧
      ∀ re re', NewRulesEngine (.ok L) = .ok re → NewRulesEngine (.ok L') = .ok re' →
        re = re' := by
  have key : ∀ re, NewRulesEngine (.ok L) = .ok re ↔ NewRulesEngine (.ok L') = .ok re := by
    intro re
    rw [newRulesEngine_ok_iff, newRulesEngine_ok_iff]
    constructor
    · rintro ⟨L₁, h1, hne, hre, hv⟩
      cases h1
      refine ⟨L', rfl, ?_, by rw [foldl_insertsUnknown h]; exact hre, hv⟩
      rintro rfl
      cases h
      exact hne rfl
    · rintro ⟨L₁, h1, hne, hre, hv⟩
      cases h1
      rw [foldl_insertsUnknown h] at hre
      refine ⟨L, rfl, ?_, hre, hv⟩
      rintro rfl
      -- the engine built from unknown definitions only is empty, hence invalid
      rw [hre] at hv
      exact absurd hv (by decide)
  refine ⟨⟨fun ⟨re, hre⟩ => ⟨re, (key re).1 hre⟩, fun ⟨re, hre⟩ => ⟨re, (key re).2 hre⟩⟩, ?_⟩
  intro re re' hre hre'
  have h' := (key re).1 hre
  rw [h'] at hre'
  exact Except.ok.inj hre'

theorem unknown_rules_ignored_witness :
    InsertsUnknown sixRules sixRulesAndUnknown ∧
      NewRulesEngine (.ok sixRules) = .ok sixEngine ∧
      NewRulesEngine (.ok sixRulesAndUnknown) = .ok sixEngine ∧
      ((∃ re, NewRulesEngine (.ok sixRules) = .ok re) ↔
        (∃ re, NewRulesEngine (.ok sixRulesAndUnknown) = .ok re)) :=
  have hins : InsertsUnknown sixRules sixRulesAndUnknown :=
    .ins _ (by decide) (.keep _ (.keep _ (.ins _ (by decide)
      (.keep _ (.keep _ (.keep _ (.keep _ .nil)))))))
  ⟨hins, rfl, rfl, (unknown_rules_ignored sixRules sixRulesAndUnknown hins).1⟩

/-- C10: on every definition list with at least one definition for each of the six rule
names, `NewRulesEngine` returns an engine; its map holds exactly five handlers, keyed by
exactly Income, Age, NoOfCreditCards, PoliticallyExposed and PhoneLocation, each of the
kind of its key and carrying the constraints of a definition of that name; the master
handler, of the Master kind with the constraints of a Master definition, is held apart and
no entry of the map is keyed Master or of the Master kind. -/
theorem six_rules_build_five (L : List RuleInfo)
    (hall : ∀ n ∈ allRules, ∃ d ∈ L, d.Name = n) :
    ∃ re, NewRulesEngine (.ok L) = .ok re ∧
      (re.rules.map Prod.fst).Perm requiredRules ∧ re.rules.length = 5 ∧
      (∀ k h, (k, h) ∈ re.rules → h.name = k ∧ h.rule.kind = k ∧
        ∃ d ∈ L, d.Name = k ∧ h.rule.constraints = d.Constraints) ∧
      (∃ m, re.masterRule = some m ∧ m.name = RuleMaster ∧ m.rule.kind = RuleMaster ∧
        ∃ d ∈ L, d.Name = RuleMaster ∧ m.rule.constraints = d.Constraints) ∧
      (∀ e ∈ re.rules, e.1 ≠ RuleMaster ∧ e.2.rule.kind ≠ RuleMaster) := by
  have hb := built_foldl L
  have hne : L ≠ [] := by
    obtain ⟨d, hd, -⟩ := hall RuleMaster (by decide)
    exact List.ne_nil_of_mem hd
  have hv : EngineRulesValid (L.foldl addRuleInfo { rules := [], masterRule := none }) = true := by
    rw [engineRulesValid_iff]
    constructor
    · intro k hk
      obtain ⟨d, hd, hname⟩ := hall k ((mem_allRules_iff k).2 (Or.inr hk))
      have h := (hb.present d hd).1 (hname ▸ hk)
      rwa [hname] at h
    · obtain ⟨d, hd, hname⟩ := hall RuleMaster (by decide)
      exact (hb.present d hd).2 hname
  have hperm := keys_perm_of_built hb hv
  obtain ⟨m, hm⟩ := Option.isSome_iff_exists.1 ((engineRulesValid_iff _).1 hv).2
  refine ⟨_, newRulesEngine_valid hne hv, hperm, ?_, ?_, ⟨m, hm, hb.master m hm⟩, ?_⟩
  · have h := hperm.length_eq
    rw [List.length_map] at h
    exact h
  · intro k h hmem
    exact (hb.rules k h hmem).2
  · rintro ⟨k, h⟩ hmem
    obtain ⟨hreq, -, hkind, -⟩ := hb.rules k h hmem
    have hk : k ≠ RuleMaster := fun hk => master_not_required (hk ▸ hreq)
    exact ⟨hk, fun hk' => hk (hkind.symm.trans hk')⟩

theorem six_rules_build_five_witness :
    (∀ n ∈ allRules, ∃ d ∈ sixRules, d.Name = n) ∧
      NewRulesEngine (.ok sixRules) = .ok sixEngine ∧
      ∃ re, NewRulesEngine (.ok sixRules) = .ok re ∧
        (re.rules.map Prod.fst).Perm requiredRules ∧ re.rules.length = 5 ∧
        (∀ k h, (k, h) ∈ re.rules → h.name = k ∧ h.rule.kind = k ∧
          ∃ d ∈ sixRules, d.Name = k ∧ h.rule.constraints = d.Constraints) ∧
        (∃ m, re.masterRule = some m ∧ m.name = RuleMaster ∧ m.rule.kind = RuleMaster ∧
          ∃ d ∈ sixRules, d.Name = RuleMaster ∧ m.rule.constraints = d.Constraints) ∧
        (∀ e ∈ re.rules, e.1 ≠ RuleMaster ∧ e.2.rule.kind ≠ RuleMaster) :=
  ⟨by decide, rfl, six_rules_build_five sixRules (by decide)⟩

/-! ## Evaluator claims -/

theorem trunc_of_intValue {v : Float64} {n : Int} (h : v.intValue = some n) : v.trunc = n := by
  unfold Float64.intValue at h
  unfold Float64.trunc
  by_cases hexp : 0 ≤ v.exp
  · simp only [hexp, if_true, Option.some.injEq] at h
    simp [hexp, h]
  · simp only [hexp, if_false] at h
    by_cases hdvd : (2 ^ (-v.exp).toNat : Int) ∣ v.mant
    · simp only [hdvd, if_true, Option.some.injEq] at h
      simp only [hexp, if_false]
      rw [Int.tdiv_eq_ediv_of_dvd hdvd]
      exact h
    · simp [hdvd] at h

/-- The conversion `int(v)` of an integral value in the range of `int` is that value. -/
theorem toInt_of_intValue (deps : Deps) {v : Float64} {n : Int} (h : v.intValue = some n)
    (hfit : fitsInt n) : toInt deps v = n := by
  unfold toInt
  rw [trunc_of_intValue h]
  exact if_pos hfit

/-- C11 (amended): the Income evaluator returns true exactly when `income > m`, strictly,
where `m` is the value of `minimum_salary` when the key holds a JSON number equal to an
integer in the range of the 64-bit `int`, and 100000 when the key is absent or holds a
value of any other type (any value that is not a `float64`); an applicant whose income
equals `m` fails. -/
theorem income_rule_threshold (deps : Deps) (ir : IncomeRule) (applicant : Applicant) :
    (∀ v n, mapGet ir.constraints minSalaryConstraint = some (.float64 v) →
        v.intValue = some n → fitsInt n →
        (ir.Execute deps applicant = true ↔ applicant.Income > n) ∧
          (applicant.Income = n → ir.Execute deps applicant = false)) ∧
      ((∀ v, mapGet ir.constraints minSalaryConstraint ≠ some (.float64 v)) →
        (ir.Execute deps applicant = true ↔ applicant.Income > 100000) ∧
          (applicant.Income = 100000 → ir.Execute deps applicant = false)) := by
  constructor
  · intro v n hget hv hfit
    have h : ir.Execute deps applicant = decide (applicant.Income > n) := by
      simp only [IncomeRule.Execute, hget, toInt_of_intValue deps hv hfit]
    rw [h]
    exact ⟨by simp, fun heq => by simp [heq]⟩
  · intro hother
    have h : ir.Execute deps applicant = decide (applicant.Income > 100000) := by
      unfold IncomeRule.Execute
      split
      · rename_i v hget
        exact absurd hget (hother v)
      · rfl
    rw [h]
    exact ⟨by simp, fun heq => by simp [heq]⟩

theorem income_rule_threshold_witness :
    mapGet sixIncome.2.rule.constraints minSalaryConstraint = some (.float64 ⟨100000, 0⟩) ∧
      (⟨100000, 0⟩ : Float64).intValue = some 100000 ∧ fitsInt 100000 ∧
      (IncomeRule.Execute testDeps ⟨sixIncome.2.rule.constraints⟩ goodApplicant = true ↔
        goodApplicant.Income > 100000) ∧
      IncomeRule.Execute testDeps ⟨sixIncome.2.rule.constraints⟩ borderlineApplicant = false :=
  ⟨rfl, rfl, by decide,
    ((income_rule_threshold testDeps ⟨sixIncome.2.rule.constraints⟩ goodApplicant).1
      ⟨100000, 0⟩ 100000 rfl rfl (by decide)).1,
    ((income_rule_threshold testDeps ⟨sixIncome.2.rule.constraints⟩ borderlineApplicant).1
      ⟨100000, 0⟩ 100000 rfl rfl (by decide)).2 rfl⟩

/-- C12 (amended): the Age evaluator returns true exactly when `age >= m`, where `m` is
the value of `min_age_allowed` when the key holds a JSON number equal to an integer in the
range of the 64-bit `int`, and 18 when the key is absent or holds a value of any other type
(any value that is not a `float64`); an applicant whose age equals `m` passes. -/
theorem age_rule_threshold (deps : Deps) (ar : AgeRule) (applicant : Applicant) :
    (∀ v n, mapGet ar.constraints minAgeConstraint = some (.float64 v) →
        v.intValue = some n → fitsInt n →
        (ar.Execute deps applicant = true ↔ applicant.Age ≥ n) ∧
          (applicant.Age = n → ar.Execute deps applicant = true)) ∧
      ((∀ v, mapGet ar.constraints minAgeConstraint ≠ some (.float64 v)) →
        (ar.Execute deps applicant = true ↔ applicant.Age ≥ 18) ∧
          (applicant.Age = 18 → ar.Execute deps applicant = true)) := by
  constructor
  · intro v n hget hv hfit
    have h : ar.Execute deps applicant = decide (applicant.Age ≥ n) := by
      simp only [AgeRule.Execute, hget, toInt_of_intValue deps hv hfit]
    rw [h]
    exact ⟨by simp, fun heq => by simp [heq]⟩
  · intro hother
    have h : ar.Execute deps applicant = decide (applicant.Age ≥ 18) := by
      unfold AgeRule.Execute
      split
      · rename_i v hget
        exact absurd hget (hother v)
      · rfl
    rw [h]
    exact ⟨by simp, fun heq => by simp [heq]⟩

theorem age_rule_threshold_witness :
    mapGet sixAge.2.rule.constraints minAgeConstraint = some (.float64 ⟨18, 0⟩) ∧
      (⟨18, 0⟩ : Float64).intValue = some 18 ∧ fitsInt 18 ∧
      (AgeRule.Execute testDeps ⟨sixAge.2.rule.constraints⟩ goodApplicant = true ↔
        goodApplicant.Age ≥ 18) ∧
      AgeRule.Execute testDeps ⟨sixAge.2.rule.constraints⟩ borderlineApplicant = true :=
  ⟨rfl, rfl, by decide,
    ((age_rule_threshold testDeps ⟨sixAge.2.rule.constraints⟩ goodApplicant).1
      ⟨18, 0⟩ 18 rfl rfl (by decide)).1,
    ((age_rule_threshold testDeps ⟨sixAge.2.rule.constraints⟩ borderlineApplicant).1
      ⟨18, 0⟩ 18 rfl rfl (by decide)).2 rfl⟩

/-- C13 (amended): for every risk-scoring function, the CreditCards evaluator returns
true exactly when `cardCount <= m` and the risk score of (age, cardCount) is "LOW", where
`m` is the value of `max_credit_card_count` when the key holds a JSON number equal to an
integer in the range of the 64-bit `int`, and 3 when the key is absent or holds a value of
any other type (any value that is not a `float64`). -/
theorem credit_cards_rule_threshold (deps : Deps) (cr : NoOfCreditCardsRule)
    (applicant : Applicant) :
    (∀ v n, mapGet cr.constraints maxCreditCardsConstraint = some (.float64 v) →
        v.intValue = some n → fitsInt n →
        (cr.Execute deps applicant = true ↔ applicant.NumberOfCreditCards ≤ n ∧
          deps.CalculateCreditRisk applicant.Age applicant.NumberOfCreditCards = "LOW")) ∧
      ((∀ v, mapGet cr.constraints maxCreditCardsConstraint ≠ some (.float64 v)) →
        (cr.Execute deps applicant = true ↔ applicant.NumberOfCreditCards ≤ 3 ∧
          deps.CalculateCreditRisk applicant.Age applicant.NumberOfCreditCards = "LOW")) := by
  constructor
  · intro v n hget hv hfit
    simp only [NoOfCreditCardsRule.Execute, hget, toInt_of_intValue deps hv hfit,
      Bool.and_eq_true, decide_eq_true_eq]
  · intro hother
    have h : cr.Execute deps applicant =
        (decide (applicant.NumberOfCreditCards ≤ 3) &&
          decide (deps.CalculateCreditRisk applicant.Age applicant.NumberOfCreditCards =
            "LOW")) := by
      unfold NoOfCreditCardsRule.Execute
      split
      · rename_i v hget
        exact absurd hget (hother v)
      · rfl
    rw [h]
    simp only [Bool.and_eq_true, decide_eq_true_eq]

theorem credit_cards_rule_threshold_witness :
    (∀ v, mapGet sixCards.2.rule.constraints maxCreditCardsConstraint ≠ some (.float64 v)) ∧
      (NoOfCreditCardsRule.Execute testDeps ⟨sixCards.2.rule.constraints⟩ borderlineApplicant =
          true ↔ borderlineApplicant.NumberOfCreditCards ≤ 3 ∧
        testDeps.CalculateCreditRisk borderlineApplicant.Age
          borderlineApplicant.NumberOfCreditCards = "LOW") ∧
      mapGet fiveCards.constraints maxCreditCardsConstraint = some (.float64 ⟨5, 0⟩) ∧
      (⟨5, 0⟩ : Float64).intValue = some 5 ∧ fitsInt 5 ∧
      (fiveCards.Execute testDeps borderlineApplicant = true ↔
        borderlineApplicant.NumberOfCreditCards ≤ 5 ∧
          testDeps.CalculateCreditRisk borderlineApplicant.Age
            borderlineApplicant.NumberOfCreditCards = "LOW") :=
  ⟨(fun v h => by cases h),
    (credit_cards_rule_threshold testDeps ⟨sixCards.2.rule.constraints⟩ borderlineApplicant).2
      (fun v h => by cases h),
    rfl, rfl, by decide,
    (credit_cards_rule_threshold testDeps fiveCards borderlineApplicant).1 ⟨5, 0⟩ 5 rfl rfl
      (by decide)⟩

/-- C14: for an applicant whose `PoliticallyExposed` is present, with value `p`, the
PoliticallyExposed evaluator returns whether `p` equals `e`, where `e` is true when
`is_pp_exposed` is absent and its value when it is a boolean; with the key absent an
applicant who is not politically exposed fails. -/
theorem politically_exposed_rule (per : PoliticallyExposedRule) (applicant : Applicant)
    (p : Bool) (hp : applicant.PoliticallyExposed = some p) :
    (mapGet per.constraints isExposedConstraint = none →
        per.Execute applicant = .ok (decide (p = true)) ∧
          (p = false → per.Execute applicant = .ok false)) ∧
      (∀ e, mapGet per.constraints isExposedConstraint = some (.bool e) →
        per.Execute applicant = .ok (decide (p = e))) := by
  constructor
  · intro hget
    have h : per.Execute applicant = .ok (decide (p = true)) := by
      simp [PoliticallyExposedRule.Execute, hget, comparePoliticallyExposed, hp]
    exact ⟨h, fun hfalse => by rw [h, hfalse]; rfl⟩
  · intro e hget
    cases p <;> cases e <;>
      simp [PoliticallyExposedRule.Execute, hget, comparePoliticallyExposed, hp]

theorem politically_exposed_rule_witness :
    goodApplicant.PoliticallyExposed = some false ∧
      mapGet sixExposed.2.rule.constraints isExposedConstraint = some (.bool false) ∧
      PoliticallyExposedRule.Execute ⟨sixExposed.2.rule.constraints⟩ goodApplicant = .ok true ∧
      PoliticallyExposedRule.Execute ⟨[]⟩ goodApplicant = .ok false :=
  ⟨rfl, rfl,
    (politically_exposed_rule ⟨sixExposed.2.rule.constraints⟩ goodApplicant false rfl).2 false
      rfl,
    ((politically_exposed_rule ⟨[]⟩ goodApplicant false rfl).1 rfl).2 rfl⟩

/-- C19 (the code departs from it): when `is_pp_exposed` is present with a value that is
not a boolean, the PoliticallyExposed evaluator panics at the unchecked assertion
`c.(bool)` instead of using the default, for every applicant. -/
theorem politically_exposed_panics (per : PoliticallyExposedRule) (applicant : Applicant)
    (v : Value) (hget : mapGet per.constraints isExposedConstraint = some v)
    (hv : v.isBool = false) : per.Execute applicant = .error .interfaceConversion := by
  unfold PoliticallyExposedRule.Execute
  rw [hget]
  cases v <;> first | rfl | simp [Value.isBool] at hv

theorem politically_exposed_panics_witness :
    goodApplicant.PoliticallyExposed = some false ∧
      mapGet typoExposedRule.constraints isExposedConstraint = some (.string "false") ∧
      (Value.string "false").isBool = false ∧
      typoExposedRule.Execute goodApplicant = .error .interfaceConversion ∧
      PoliticallyExposedRule.Execute ⟨[]⟩ goodApplicant = .ok false :=
  ⟨rfl, rfl, rfl,
    politically_exposed_panics typoExposedRule goodApplicant (.string "false") rfl rfl, rfl⟩

theorem toStrCodes_panics (xs : List Value) (h : xs.all Value.isString = false) :
    toStrCodes xs = .error .interfaceConversion := by
  induction xs with
  | nil => simp at h
  | cons x rest ih =>
    cases x with
    | string s =>
      have hrest : rest.all Value.isString = false := by
        simpa [List.all_cons, Value.isString] using h
      simp [toStrCodes, ih hrest]
    | null => rfl
    | bool b => rfl
    | float64 v => rfl
    | slice ys => rfl
    | object fields => rfl
    | int i => rfl
    | stringSlice ys => rfl

/-- C20 (the code departs from it): when `allowed_area_codes` is a list with at least one
element that is not a string, the PhoneLocation evaluator panics at the unchecked assertion
`v.(string)` instead of returning false, for every applicant. -/
theorem phone_location_panics (deps : Deps) (plr : PhoneLocationRule) (applicant : Applicant)
    (codes : List Value)
    (hget : mapGet plr.constraints allowedAreaCodesConstraint = some (.slice codes))
    (hcodes : codes.all Value.isString = false) :
    plr.Execute deps applicant = .error .interfaceConversion := by
  simp only [PhoneLocationRule.Execute, hget, toStrCodes_panics codes hcodes]

theorem phone_location_panics_witness :
    mapGet numberCodesRule.constraints allowedAreaCodesConstraint =
        some (.slice [.string "2", .float64 ⟨5, 0⟩]) ∧
      [Value.string "2", Value.float64 ⟨5, 0⟩].all Value.isString = false ∧
      numberCodesRule.Execute testDeps goodApplicant = .error .interfaceConversion :=
  ⟨rfl, rfl,
    phone_location_panics testDeps numberCodesRule goodApplicant _ rfl rfl⟩

/-- C17: the Master evaluator returns true exactly when the bypass is enabled
(`check_approved_phones` absent, not a boolean, or true), the allowlist read succeeds and
the applicant's phone number is a key of the allowlist; when `check_approved_phones` is
false it returns false and `ListApprovedPhones` is not called. -/
theorem master_rule_iff (phones : Except String ApprovedPhones) (bpr : MasterRule)
    (applicant : Applicant) :
    (bpr.Execute phones applicant = true ↔
        (mapGet bpr.constraints checkApprovedPhoneConstraint = none ∨
          (∃ v, mapGet bpr.constraints checkApprovedPhoneConstraint = some v ∧
            v.isBool = false) ∨
          mapGet bpr.constraints checkApprovedPhoneConstraint = some (.bool true)) ∧
        ∃ approved, phones = .ok approved ∧
          (mapGet approved applicant.PhoneNumber).isSome = true) ∧
      (bpr.ExecuteReads phones applicant).2 = bpr.Execute phones applicant ∧
      (mapGet bpr.constraints checkApprovedPhoneConstraint = some (.bool false) →
        bpr.ExecuteReads phones applicant = (0, false)) := by
  unfold MasterRule.Execute MasterRule.ExecuteReads
  cases hget : mapGet bpr.constraints checkApprovedPhoneConstraint with
  | none => cases phones <;> simp
  | some v =>
    cases v with
    | bool b => cases b <;> cases phones <;> simp [Value.isBool]
    | null => cases phones <;> simp [Value.isBool]
    | float64 x => cases phones <;> simp [Value.isBool]
    | string x => cases phones <;> simp [Value.isBool]
    | slice x => cases phones <;> simp [Value.isBool]
    | object x => cases phones <;> simp [Value.isBool]
    | int x => cases phones <;> simp [Value.isBool]
    | stringSlice x => cases phones <;> simp [Value.isBool]

theorem master_rule_iff_witness :
    MasterRule.Execute (.ok oneApprovedPhone) ⟨sixMaster.rule.constraints⟩
        preApprovedApplicant = true ∧
      MasterRule.Execute (.error "failed to load approved list phones")
        ⟨sixMaster.rule.constraints⟩ preApprovedApplicant = false ∧
      mapGet bypassOff.constraints checkApprovedPhoneConstraint = some (.bool false) ∧
      bypassOff.ExecuteReads (.ok oneApprovedPhone) preApprovedApplicant = (0, false) :=
  ⟨(master_rule_iff (.ok oneApprovedPhone) ⟨sixMaster.rule.constraints⟩
      preApprovedApplicant).1.2 ⟨Or.inr (Or.inr rfl), oneApprovedPhone, rfl, rfl⟩,
    rfl, rfl,
    (master_rule_iff (.ok oneApprovedPhone) bypassOff preApprovedApplicant).2.2 rfl⟩

/-- Only the Master evaluator looks at the outcome of the allowlist read. -/
theorem handle_phones_irrelevant (deps : Deps) (p₁ p₂ : Except String ApprovedPhones)
    (applicant : Applicant) (rh : RuleHandler) (hkind : rh.rule.kind ≠ RuleMaster) :
    rh.Handle deps p₁ applicant = rh.Handle deps p₂ applicant := by
  obtain ⟨name, rule⟩ := rh
  cases rule <;> first | rfl | exact absurd rfl hkind

theorem verifyLoop_phones_irrelevant (deps : Deps) (p₁ p₂ : Except String ApprovedPhones)
    (applicant : Applicant) (order : List (String × RuleHandler))
    (hkind : ∀ e ∈ order, e.2.rule.kind ≠ RuleMaster) :
    verifyLoop deps p₁ applicant order = verifyLoop deps p₂ applicant order := by
  induction order with
  | nil => rfl
  | cons e rest ih =>
    obtain ⟨k, h⟩ := e
    have hh := handle_phones_irrelevant deps p₁ p₂ applicant h
      (hkind (k, h) (List.mem_cons_self _ _))
    have ih' := ih (fun e he => hkind e (List.mem_cons_of_mem _ he))
    simp only [verifyLoop, hh, ih']

/-- A handler of the Master kind returns false when the allowlist read fails. -/
theorem handle_master_read_failed (deps : Deps) (err : String) (applicant : Applicant)
    (rh : RuleHandler) (hkind : rh.rule.kind = RuleMaster) :
    rh.Handle deps (.error err) applicant = .ok false := by
  obtain ⟨name, rule⟩ := rh
  cases rule with
  | master r =>
    simp only [RuleHandler.Handle, ApprovalRule.Execute, MasterRule.Execute]
    split <;> rfl
  | income r => exact absurd hkind (by simp [ApprovalRule.kind]; decide)
  | age r => exact absurd hkind (by simp [ApprovalRule.kind]; decide)
  | noOfCreditCards r => exact absurd hkind (by simp [ApprovalRule.kind]; decide)
  | politicallyExposed r => exact absurd hkind (by simp [ApprovalRule.kind]; decide)
  | phoneLocation r => exact absurd hkind (by simp [ApprovalRule.kind]; decide)

/-- C18: on every engine returned by `NewRulesEngine` whose overrides are well-typed and
for every applicant whose `PoliticallyExposed` is present, when the allowlist read fails
`Verify` returns "approved" if the five non-master evaluators all return true and
"declined" otherwise, and this is the Status `Verify` returns, whatever the allowlist read
would give, on the same engine with a Master evaluator whose `check_approved_phones` is
false. -/
theorem failed_read_as_bypass_disabled (deps : Deps) (load : Except String (List RuleInfo))
    (re : RulesEngine) (err : String) (phones : Except String ApprovedPhones)
    (applicant : Applicant) (order : List (String × RuleHandler)) (cOff : Constraints)
    (hnew : NewRulesEngine load = .ok re) (htyped : re.wellTyped = true)
    (hpe : applicant.PoliticallyExposed.isSome = true) (horder : MapRange re.rules order)
    (hoff : mapGet cOff checkApprovedPhoneConstraint = some (.bool false)) :
    ∃ (hI hA hC hP hL : RuleHandler) (i a c p l : Bool),
      (mapGet re.rules RuleIncome = some hI ∧
        hI.Handle deps (.error err) applicant = .ok i) ∧
      (mapGet re.rules RuleAge = some hA ∧ hA.Handle deps (.error err) applicant = .ok a) ∧
      (mapGet re.rules RuleNoOfCreditCards = some hC ∧
        hC.Handle deps (.error err) applicant = .ok c) ∧
      (mapGet re.rules RulePoliticallyExposed = some hP ∧
        hP.Handle deps (.error err) applicant = .ok p) ∧
      (mapGet re.rules RulePhone = some hL ∧ hL.Handle deps (.error err) applicant = .ok l) ∧
      re.Verify deps (.error err) applicant order =
        .ok (if i && (a && (c && (p && l))) then StatusApproved else StatusDeclined) ∧
      RulesEngine.Verify deps phones
          { re with masterRule := some ⟨RuleMaster, .master ⟨cOff⟩⟩ } applicant order =
        re.Verify deps (.error err) applicant order := by
  obtain ⟨L, -, -, hre, hv⟩ := (newRulesEngine_ok_iff load re).1 hnew
  have hb : Built L re := hre ▸ built_foldl L
  obtain ⟨hreq, hmaster⟩ := (engineRulesValid_iff re).1 hv
  obtain ⟨hM, gM⟩ := Option.isSome_iff_exists.1 hmaster
  have eM := handle_master_read_failed deps err applicant hM (hb.master hM gM).2.1
  have get : ∀ k ∈ requiredRules, ∃ rh b, mapGet re.rules k = some rh ∧
      rh.Handle deps (.error err) applicant = .ok b := by
    intro k hk
    obtain ⟨rh, hg⟩ := Option.isSome_iff_exists.1 (hreq k hk)
    obtain ⟨b, hb'⟩ := handle_ok_of_wellTyped deps (.error err) applicant rh
      (wellTyped_of_mem htyped (mem_of_mapGet hg)) hpe
    exact ⟨rh, b, hg, hb'⟩
  obtain ⟨hI, i, gI, eI⟩ := get RuleIncome (by decide)
  obtain ⟨hA, a, gA, eA⟩ := get RuleAge (by decide)
  obtain ⟨hC, c, gC, eC⟩ := get RuleNoOfCreditCards (by decide)
  obtain ⟨hP, p, gP, eP⟩ := get RulePoliticallyExposed (by decide)
  obtain ⟨hL, l, gL, eL⟩ := get RulePhone (by decide)
  have hok : ∀ e ∈ order, ∃ b, e.2.Handle deps (.error err) applicant = .ok b := fun e he =>
    handle_ok_of_wellTyped deps (.error err) applicant e.2
      (wellTyped_of_mem htyped ((List.Perm.mem_iff horder).1 he)) hpe
  have hfailed : re.Verify deps (.error err) applicant order =
      (verifyLoop deps (.error err) applicant order).2 := by
    simp only [RulesEngine.Verify, RulesEngine.VerifyTrace, gM, eM]
  have hkind : ∀ e ∈ order, e.2.rule.kind ≠ RuleMaster := by
    intro e he hk
    obtain ⟨hr, -, hk', -⟩ := hb.rules e.1 e.2 ((List.Perm.mem_iff horder).1 he)
    exact master_not_required (hk ▸ hk' ▸ hr)
  have hdisabled : RulesEngine.Verify deps phones
      { re with masterRule := some ⟨RuleMaster, .master ⟨cOff⟩⟩ } applicant order =
      (verifyLoop deps phones applicant order).2 := by
    simp [RulesEngine.Verify, RulesEngine.VerifyTrace, RuleHandler.Handle,
      ApprovalRule.Execute, MasterRule.Execute, hoff]
  refine ⟨hI, hA, hC, hP, hL, i, a, c, p, l, ⟨gI, eI⟩, ⟨gA, eA⟩, ⟨gC, eC⟩, ⟨gP, eP⟩,
    ⟨gL, eL⟩, ?_, ?_⟩
  · rw [hfailed, verifyLoop_result deps (.error err) applicant order hok,
      all_passes_eq hb deps (.error err) applicant horder gI gA gC gP gL, passes_of_handle eI,
      passes_of_handle eA, passes_of_handle eC, passes_of_handle eP, passes_of_handle eL]
  · rw [hfailed, hdisabled,
      verifyLoop_phones_irrelevant deps phones (.error err) applicant order hkind]

theorem failed_read_as_bypass_disabled_witness :
    NewRulesEngine (.ok sixRules) = .ok sixEngine ∧ sixEngine.wellTyped = true ∧
      preApprovedApplicant.PoliticallyExposed.isSome = true ∧
      MapRange sixEngine.rules sixEngine.rules.reverse ∧
      mapGet bypassOff.constraints checkApprovedPhoneConstraint = some (.bool false) ∧
      ∃ (hI hA hC hP hL : RuleHandler) (i a c p l : Bool),
        (mapGet sixEngine.rules RuleIncome = some hI ∧
          hI.Handle testDeps (.error "failed to load approved list phones")
            preApprovedApplicant = .ok i) ∧
        (mapGet sixEngine.rules RuleAge = some hA ∧
          hA.Handle testDeps (.error "failed to load approved list phones")
            preApprovedApplicant = .ok a) ∧
        (mapGet sixEngine.rules RuleNoOfCreditCards = some hC ∧
          hC.Handle testDeps (.error "failed to load approved list phones")
            preApprovedApplicant = .ok c) ∧
        (mapGet sixEngine.rules RulePoliticallyExposed = some hP ∧
          hP.Handle testDeps (.error "failed to load approved list phones")
            preApprovedApplicant = .ok p) ∧
        (mapGet sixEngine.rules RulePhone = some hL ∧
          hL.Handle testDeps (.error "failed to load approved list phones")
            preApprovedApplicant = .ok l) ∧
        sixEngine.Verify testDeps (.error "failed to load approved list phones")
            preApprovedApplicant sixEngine.rules.reverse =
          .ok (if i && (a && (c && (p && l))) then StatusApproved else StatusDeclined) ∧
        RulesEngine.Verify testDeps (.ok oneApprovedPhone)
            { sixEngine with masterRule := some ⟨RuleMaster, .master ⟨bypassOff.constraints⟩⟩ }
            preApprovedApplicant sixEngine.rules.reverse =
          sixEngine.Verify testDeps (.error "failed to load approved list phones")
            preApprovedApplicant sixEngine.rules.reverse :=
  ⟨rfl, rfl, rfl, List.reverse_perm _, rfl,
    failed_read_as_bypass_disabled testDeps (.ok sixRules) sixEngine
      "failed to load approved list phones" (.ok oneApprovedPhone) preApprovedApplicant
      sixEngine.rules.reverse bypassOff.constraints rfl rfl rfl (List.reverse_perm _) rfl⟩

/-! ## PhoneLocation and the regexp model -/

theorem regexpSound_modelDeps : RegexpSound modelDeps := by
  intro pattern s
  constructor
  · intro b h
    simp [modelDeps, h]
  · intro h
    exact ⟨"error parsing regexp: missing closing ]", by simp [modelDeps, h]⟩

theorem toStrCodes_codes (codes : List Char) :
    toStrCodes (codes.map (fun c => Value.string (String.singleton c))) =
      .ok (codes.map String.singleton) := by
  induction codes with
  | nil => rfl
  | cons c rest ih => simp [toStrCodes, ih]

theorem join_singletons (codes : List Char) :
    (String.join (codes.map String.singleton)).toList = codes := by
  rw [String.join_eq]
  show ((codes.map String.singleton).map String.data).flatten = codes
  induction codes with
  | nil => rfl
  | cons c rest ih =>
    simp only [List.map_cons, List.flatten_cons, ih]
    rfl

theorem pattern_toList (strs : List String) :
    ("^[" ++ String.join strs ++ "]").toList =
      '^' :: '[' :: ((String.join strs).toList ++ [']']) := by
  show ("^[" ++ String.join strs ++ "]").data = _
  rw [String.data_append, String.data_append]
  rfl

/-- The model on the pattern built from area codes without special characters. -/
theorem bracketMatch_plain (codes : List Char) (s : String)
    (hplain : codes.any classMeta = false) (hfirst : codes.head? ≠ some '^') :
    bracketMatch ("^[" ++ String.join (codes.map String.singleton) ++ "]") s =
      if codes.isEmpty then some none
      else some (some (match s.toList with
        | [] => false
        | c :: _ => codes.contains c)) := by
  unfold bracketMatch
  rw [pattern_toList, join_singletons]
  simp only [List.getLast?_concat, if_true, List.dropLast_concat]
  unfold bracketItems
  cases codes with
  | nil => rfl
  | cons c rest =>
    have hc : c ≠ '^' := fun h => hfirst (by simp [h])
    have hneg : (match c :: rest with
        | '^' :: _ => true
        | _ => false) = false := by
      split
      · rename_i heq
        simp only [List.cons.injEq] at heq
        exact absurd heq.1 hc
      · rfl
    simp only [hneg, Bool.false_eq_true, if_false, hplain, List.isEmpty_cons]

/-- What the matching step returns for area codes without special characters, given a
matcher that behaves as Go's. -/
theorem matchAreaCodes_plain (deps : Deps) (hre : RegexpSound deps) (codes : List Char)
    (applicant : Applicant) (hplain : codes.any classMeta = false)
    (hfirst : codes.head? ≠ some '^') :
    matchAreaCodes deps (codes.map String.singleton) applicant =
      (match applicant.PhoneNumber.toList with
        | [] => false
        | c :: _ => codes.contains c) := by
  have hm := bracketMatch_plain codes applicant.PhoneNumber hplain hfirst
  cases codes with
  | nil =>
    obtain ⟨msg, hmsg⟩ := (hre _ applicant.PhoneNumber).2 hm
    simp only [matchAreaCodes, hmsg]
    cases applicant.PhoneNumber.toList <;> rfl
  | cons c rest =>
    simp only [List.isEmpty_cons, Bool.false_eq_true, if_false] at hm
    simp only [matchAreaCodes, (hre _ applicant.PhoneNumber).1 _ hm]

theorem firstChar_iff (codes : List Char) (s : String) :
    (match s.toList with
      | [] => false
      | c :: _ => codes.contains c) = true ↔
      ∃ c rest, s.toList = c :: rest ∧ c ∈ codes := by
  cases s.toList with
  | nil => simp
  | cons c rest => simp

/-- C15: given a matcher that behaves as Go's `regexp.MatchString`, with no
`allowed_area_codes` key the PhoneLocation evaluator returns a boolean, and returns true
exactly when the phone number is non-empty and its first character is one of '0', '2',
'5', '8'. -/
theorem phone_location_default (deps : Deps) (plr : PhoneLocationRule) (applicant : Applicant)
    (hre : RegexpSound deps)
    (hget : mapGet plr.constraints allowedAreaCodesConstraint = none) :
    (∃ b, plr.Execute deps applicant = .ok b) ∧
      (plr.Execute deps applicant = .ok true ↔
        ∃ c rest, applicant.PhoneNumber.toList = c :: rest ∧
          (c = '0' ∨ c = '2' ∨ c = '5' ∨ c = '8')) := by
  have hm := matchAreaCodes_plain deps hre ['0', '2', '5', '8'] applicant (by decide)
    (by decide)
  have hex : plr.Execute deps applicant =
      .ok (matchAreaCodes deps ["0", "2", "5", "8"] applicant) := by
    simp only [PhoneLocationRule.Execute, hget]
  refine ⟨⟨_, hex⟩, ?_⟩
  have hstr : (['0', '2', '5', '8'].map String.singleton) = ["0", "2", "5", "8"] := by decide
  rw [hex, ← hstr, hm, Except.ok.injEq, firstChar_iff]
  simp

theorem phone_location_default_witness :
    RegexpSound modelDeps ∧
      mapGet sixPhone.2.rule.constraints allowedAreaCodesConstraint = none ∧
      PhoneLocationRule.Execute modelDeps ⟨sixPhone.2.rule.constraints⟩ goodApplicant =
        .ok true ∧
      (PhoneLocationRule.Execute modelDeps ⟨sixPhone.2.rule.constraints⟩ goodApplicant =
          .ok true ↔
        ∃ c rest, goodApplicant.PhoneNumber.toList = c :: rest ∧
          (c = '0' ∨ c = '2' ∨ c = '5' ∨ c = '8')) :=
  ⟨regexpSound_modelDeps, rfl, rfl,
    (phone_location_default modelDeps ⟨sixPhone.2.rule.constraints⟩ goodApplicant
      regexpSound_modelDeps rfl).2⟩

/-- C16 (as stated, refuted): with the single-character area codes "^" and "0" the
pattern is `^[^0]`, a negated class: the PhoneLocation evaluator returns true for the phone
number "202-324-0507", whose first character is neither "^" nor "0". -/
theorem phone_location_caret :
    RegexpSound modelDeps ∧
      mapGet caretCodesRule.constraints allowedAreaCodesConstraint =
        some (codesValue ['^', '0']) ∧
      caretCodesRule.Execute modelDeps goodApplicant = .ok true ∧
      ¬ ∃ c rest, goodApplicant.PhoneNumber.toList = c :: rest ∧ c ∈ ['^', '0'] := by
  refine ⟨regexpSound_modelDeps, rfl, rfl, ?_⟩
  rintro ⟨c, rest, hlist, hc⟩
  have h : goodApplicant.PhoneNumber.toList = '2' :: "02-324-0507".toList := rfl
  rw [h] at hlist
  simp only [List.cons.injEq] at hlist
  rw [← hlist.1] at hc
  exact absurd hc (by decide)

/-- C16 (amended): given a matcher that behaves as Go's `regexp.MatchString`, for every
`allowed_area_codes` override that is a list of single-character strings (the empty list
included) none of which is a backslash, a bracket or a dash and the first of which is not
"^", the PhoneLocation evaluator returns a boolean, and returns true exactly when the phone
number is non-empty and its first character is one of the strings of the list. -/
theorem phone_location_override (deps : Deps) (plr : PhoneLocationRule)
    (applicant : Applicant) (codes : List Char) (hre : RegexpSound deps)
    (hget : mapGet plr.constraints allowedAreaCodesConstraint = some (codesValue codes))
    (hplain : codes.any classMeta = false) (hfirst : codes.head? ≠ some '^') :
    (∃ b, plr.Execute deps applicant = .ok b) ∧
      (plr.Execute deps applicant = .ok true ↔
        ∃ c rest, applicant.PhoneNumber.toList = c :: rest ∧ c ∈ codes) := by
  have hex : plr.Execute deps applicant =
      .ok (matchAreaCodes deps (codes.map String.singleton) applicant) := by
    simp only [PhoneLocationRule.Execute, hget, codesValue, toStrCodes_codes]
  refine ⟨⟨_, hex⟩, ?_⟩
  rw [hex, matchAreaCodes_plain deps hre codes applicant hplain hfirst, Except.ok.injEq,
    firstChar_iff]

theorem phone_location_override_witness :
    RegexpSound modelDeps ∧
      mapGet twoSevenRule.constraints allowedAreaCodesConstraint =
        some (codesValue ['2', '7']) ∧
      ['2', '7'].any classMeta = false ∧ ['2', '7'].head? ≠ some '^' ∧
      twoSevenRule.Execute modelDeps goodApplicant = .ok true ∧
      (twoSevenRule.Execute modelDeps goodApplicant = .ok true ↔
        ∃ c rest, goodApplicant.PhoneNumber.toList = c :: rest ∧ c ∈ ['2', '7']) :=
  ⟨regexpSound_modelDeps, rfl, by decide, by decide, rfl,
    (phone_location_override modelDeps twoSevenRule goodApplicant ['2', '7']
      regexpSound_modelDeps rfl (by decide) (by decide)).2⟩

/-! ## Remaining evaluator claims -/

/-- C21 (as stated, refuted): with `allowed_area_codes` given as the `[]string` of the test
fixture, the PhoneLocation evaluator returns false for the phone number "202-324-0507",
for which it returns true when the key is absent. -/
theorem phone_location_no_fallback :
    RegexpSound modelDeps ∧
      mapGet stringSliceRule.constraints allowedAreaCodesConstraint =
        some (.stringSlice ["0", "2", "5", "8"]) ∧
      stringSliceRule.Execute modelDeps goodApplicant = .ok false ∧
      PhoneLocationRule.Execute modelDeps ⟨[]⟩ goodApplicant = .ok true :=
  ⟨regexpSound_modelDeps, rfl, rfl, rfl⟩

/-- C21 (amended): when `allowed_area_codes` is present with a value that is not a
`[]any` (a number, a boolean, a string, a `[]string`, null, an object), the PhoneLocation
evaluator returns false for every applicant and every matcher. -/
theorem phone_location_fails_closed (deps : Deps) (plr : PhoneLocationRule)
    (applicant : Applicant) (v : Value)
    (hget : mapGet plr.constraints allowedAreaCodesConstraint = some v)
    (hv : v.isSlice = false) : plr.Execute deps applicant = .ok false := by
  unfold PhoneLocationRule.Execute
  rw [hget]
  cases v <;> first | rfl | simp [Value.isSlice] at hv

theorem phone_location_fails_closed_witness :
    mapGet stringSliceRule.constraints allowedAreaCodesConstraint =
        some (.stringSlice ["0", "2", "5", "8"]) ∧
      (Value.stringSlice ["0", "2", "5", "8"]).isSlice = false ∧
      stringSliceRule.Execute modelDeps goodApplicant = .ok false :=
  ⟨rfl, rfl,
    phone_location_fails_closed modelDeps stringSliceRule goodApplicant _ rfl rfl⟩

/-- C25: with the bypass enabled and a successful allowlist read, an applicant whose phone
number is a key of the allowlist makes the Master evaluator return true whatever boolean is
stored under the key, false included, and `Verify` then returns "approved" on every engine
whose master handler is that evaluator. -/
theorem master_ignores_flag (deps : Deps) (bpr : MasterRule) (applicant : Applicant)
    (approved : ApprovedPhones) (flag : Bool)
    (hbypass : ∀ b, mapGet bpr.constraints checkApprovedPhoneConstraint = some (.bool b) →
      b = true)
    (hkey : mapGet approved applicant.PhoneNumber = some flag) :
    bpr.Execute (.ok approved) applicant = true ∧
      ∀ (re : RulesEngine) (name : String) (order : List (String × RuleHandler)),
        re.masterRule = some ⟨name, .master bpr⟩ →
          re.Verify deps (.ok approved) applicant order = .ok StatusApproved := by
  have hb : (match mapGet bpr.constraints checkApprovedPhoneConstraint with
      | some (.bool v) => v
      | _ => true) = true := by
    split
    · rename_i b hget
      exact hbypass b hget
    · rfl
  have hex : bpr.Execute (.ok approved) applicant = true := by
    simp only [MasterRule.Execute, hb, if_true, hkey, Option.isSome_some]
  refine ⟨hex, fun re name order hm => ?_⟩
  simp [RulesEngine.Verify, RulesEngine.VerifyTrace, hm, RuleHandler.Handle,
    ApprovalRule.Execute, hex]

theorem master_ignores_flag_witness :
    (∀ b, mapGet sixMaster.rule.constraints checkApprovedPhoneConstraint = some (.bool b) →
        b = true) ∧
      mapGet falseFlagPhones preApprovedApplicant.PhoneNumber = some false ∧
      MasterRule.Execute (.ok falseFlagPhones) ⟨sixMaster.rule.constraints⟩
        preApprovedApplicant = true ∧
      sixEngine.Verify testDeps (.ok falseFlagPhones) preApprovedApplicant sixEngine.rules =
        .ok StatusApproved :=
  have hb : ∀ b, mapGet sixMaster.rule.constraints checkApprovedPhoneConstraint =
      some (.bool b) → b = true := fun b h => by cases h; rfl
  ⟨hb, rfl,
    (master_ignores_flag testDeps ⟨sixMaster.rule.constraints⟩ preApprovedApplicant
      falseFlagPhones false hb rfl).1,
    (master_ignores_flag testDeps ⟨sixMaster.rule.constraints⟩ preApprovedApplicant
      falseFlagPhones false hb rfl).2 sixEngine "Master" sixEngine.rules rfl⟩

/-! ## Monotonicity in income -/

/-- Raising the income keeps the outcome of a handler a boolean and never turns a true
into a false. -/
theorem handle_income_mono (deps : Deps) (phones : Except String ApprovedPhones)
    (applicant : Applicant) (rh : RuleHandler) (b : Bool) (income : Int)
    (h : rh.Handle deps phones applicant = .ok b) (hle : applicant.Income ≤ income) :
    ∃ b', rh.Handle deps phones { applicant with Income := income } = .ok b' ∧
      (b = true → b' = true) := by
  obtain ⟨name, rule⟩ := rh
  cases rule with
  | income r =>
    refine ⟨_, rfl, ?_⟩
    simp only [RuleHandler.Handle, ApprovalRule.Execute, Except.ok.injEq] at h
    intro hb
    rw [hb] at h
    simp only [IncomeRule.Execute, decide_eq_true_eq] at h ⊢
    exact lt_of_lt_of_le h hle
  | age r => exact ⟨b, h, id⟩
  | noOfCreditCards r => exact ⟨b, h, id⟩
  | politicallyExposed r => exact ⟨b, h, id⟩
  | phoneLocation r => exact ⟨b, h, id⟩
  | master r => exact ⟨b, h, id⟩

/-- The loop returns "approved" only when every visited handler returned true. -/
theorem verifyLoop_approved (deps : Deps) (phones : Except String ApprovedPhones)
    (applicant : Applicant) (order : List (String × RuleHandler))
    (h : (verifyLoop deps phones applicant order).2 = .ok StatusApproved) :
    ∀ e ∈ order, e.2.Handle deps phones applicant = .ok true := by
  induction order with
  | nil => simp
  | cons e rest ih =>
    obtain ⟨k, rh⟩ := e
    cases hh : rh.Handle deps phones applicant with
    | error f => simp [verifyLoop, hh] at h
    | ok b =>
      cases b with
      | false =>
        simp only [verifyLoop, hh, Except.ok.injEq] at h
        exact absurd h (by decide)
      | true =>
        simp only [verifyLoop, hh] at h
        intro e he
        rcases List.mem_cons.1 he with rfl | hmem
        · exact hh
        · exact ih h e hmem

/-- C24: `Verify` is monotone in income: if it returns "approved" for an applicant, it
returns "approved" for the same applicant with a larger (or equal) income and all other
fields unchanged, for every engine, every fixed outcome of the allowlist read and whatever
orders the map of rules is visited in by the two calls. -/
theorem verify_income_monotone (deps : Deps) (phones : Except String ApprovedPhones)
    (re : RulesEngine) (applicant : Applicant) (income : Int)
    (order order' : List (String × RuleHandler))
    (horder : MapRange re.rules order) (horder' : MapRange re.rules order')
    (hle : applicant.Income ≤ income)
    (happ : re.Verify deps phones applicant order = .ok StatusApproved) :
    re.Verify deps phones { applicant with Income := income } order' = .ok StatusApproved := by
  unfold RulesEngine.Verify RulesEngine.VerifyTrace at happ ⊢
  cases hm : re.masterRule with
  | none => simp [hm] at happ
  | some m =>
    simp only [hm] at happ ⊢
    cases hh : m.Handle deps phones applicant with
    | error f => simp [hh] at happ
    | ok b =>
      obtain ⟨b', hb', hmono⟩ := handle_income_mono deps phones applicant m b income hh hle
      cases b' with
      | true => simp [hb']
      | false =>
        cases b with
        | true => exact absurd (hmono rfl) (by decide)
        | false =>
          simp only [hh] at happ
          have hall := verifyLoop_approved deps phones applicant order happ
          have hall' : ∀ e ∈ order', e.2.Handle deps phones
              { applicant with Income := income } = .ok true := by
            intro e he
            have hmem : e ∈ order :=
              (List.Perm.mem_iff horder).2 ((List.Perm.mem_iff horder').1 he)
            obtain ⟨b₁, hb₁, hm₁⟩ := handle_income_mono deps phones applicant e.2 true income
              (hall e hmem) hle
            rw [hb₁, hm₁ rfl]
          have hloop := verifyLoop_append deps phones { applicant with Income := income }
            order' [] hall'
          rw [List.append_nil] at hloop
          simp only [hb', hloop]
          rfl

theorem verify_income_monotone_witness :
    MapRange sixEngine.rules sixEngine.rules ∧
      MapRange sixEngine.rules sixEngine.rules.reverse ∧
      goodApplicant.Income ≤ 500000 ∧
      sixEngine.Verify testDeps (.ok oneApprovedPhone) goodApplicant sixEngine.rules =
        .ok StatusApproved ∧
      sixEngine.Verify testDeps (.ok oneApprovedPhone) { goodApplicant with Income := 500000 }
        sixEngine.rules.reverse = .ok StatusApproved :=
  ⟨List.Perm.refl _, List.reverse_perm _, by decide, rfl,
    verify_income_monotone testDeps (.ok oneApprovedPhone) sixEngine goodApplicant 500000
      sixEngine.rules sixEngine.rules.reverse (List.Perm.refl _) (List.reverse_perm _)
      (by decide) rfl⟩

/-! ## Repeated definitions -/

theorem addRuleInfo_rules_other (e : RulesEngine) (d : RuleInfo) (k : String)
    (hne : d.Name ≠ k) : mapGet (addRuleInfo e d).rules k = mapGet e.rules k := by
  unfold addRuleInfo
  cases createRule d with
  | error err => rfl
  | ok r =>
    by_cases hm : d.Name = RuleMaster
    · simp [RulesEngine.addRuleHandler, hm]
    · simp only [RulesEngine.addRuleHandler, hm, if_false]
      exact mapGet_mapSet_ne _ _ _ _ hne

theorem addRuleInfo_master_other (e : RulesEngine) (d : RuleInfo)
    (hne : d.Name ≠ RuleMaster) : (addRuleInfo e d).masterRule = e.masterRule := by
  unfold addRuleInfo
  cases createRule d with
  | error err => rfl
  | ok r => simp [RulesEngine.addRuleHandler, hne]

/-- Definitions of other names leave the handler stored under `k` as it is. -/
theorem foldl_rules_other (post : List RuleInfo) (e : RulesEngine) (k : String)
    (hpost : ∀ d ∈ post, d.Name ≠ k) :
    mapGet (post.foldl addRuleInfo e).rules k = mapGet e.rules k := by
  induction post generalizing e with
  | nil => rfl
  | cons d rest ih =>
    rw [List.foldl_cons, ih _ (fun d' hd' => hpost d' (List.mem_cons_of_mem _ hd')),
      addRuleInfo_rules_other e d k (hpost d (List.mem_cons_self _ _))]

/-- Definitions of other names than Master leave the master handler as it is. -/
theorem foldl_master_other (post : List RuleInfo) (e : RulesEngine)
    (hpost : ∀ d ∈ post, d.Name ≠ RuleMaster) :
    (post.foldl addRuleInfo e).masterRule = e.masterRule := by
  induction post generalizing e with
  | nil => rfl
  | cons d rest ih =>
    rw [List.foldl_cons, ih _ (fun d' hd' => hpost d' (List.mem_cons_of_mem _ hd')),
      addRuleInfo_master_other e d (hpost d (List.mem_cons_self _ _))]

/-- C22: when the definition list is `pre ++ d :: post` with `d` of a recognized name and
no definition of that name in `post` (so `d` is the last definition of its name, however
many precede it), the engine `NewRulesEngine` returns holds for that name the evaluator
built from `d` and no other: as its master handler when the name is Master, and otherwise
as the only entry of the map of rules under that name, the keys of the map being
distinct. -/
theorem last_definition_wins (pre post : List RuleInfo) (d : RuleInfo) (re : RulesEngine)
    (hnew : NewRulesEngine (.ok (pre ++ d :: post)) = .ok re)
    (hname : d.Name ∈ allRules) (hlast : ∀ d' ∈ post, d'.Name ≠ d.Name) :
    ∃ rule, createRule d = .ok rule ∧ rule.kind = d.Name ∧
      rule.constraints = d.Constraints ∧
      (d.Name = RuleMaster → re.masterRule = some ⟨d.Name, rule⟩) ∧
      (d.Name ≠ RuleMaster → mapGet re.rules d.Name = some ⟨d.Name, rule⟩ ∧
        ∀ h, (d.Name, h) ∈ re.rules → h = ⟨d.Name, rule⟩) ∧
      (re.rules.map Prod.fst).Nodup := by
  obtain ⟨L, hL, -, hre, -⟩ := (newRulesEngine_ok_iff _ re).1 hnew
  cases hL
  have hb : Built (pre ++ d :: post) re := hre ▸ built_foldl _
  obtain ⟨rule, hrule⟩ := createRule_known hname
  obtain ⟨hkind, hcons, -⟩ := createRule_ok hrule
  rw [List.foldl_append, List.foldl_cons] at hre
  refine ⟨rule, hrule, hkind, hcons, ?_, ?_, hb.nodup⟩
  · intro hm
    rw [hre, foldl_master_other post _ (fun d' hd' => hm ▸ hlast d' hd')]
    simp [addRuleInfo, hrule, RulesEngine.addRuleHandler, hm]
  · intro hm
    have hget : mapGet re.rules d.Name = some ⟨d.Name, rule⟩ := by
      rw [hre, foldl_rules_other post _ d.Name hlast]
      simp only [addRuleInfo, hrule, RulesEngine.addRuleHandler, hm, if_false]
      exact mapGet_mapSet_self _ _ _
    refine ⟨hget, fun h hmem => ?_⟩
    have h' := mapGet_of_mem hb.nodup hmem
    rw [hget] at h'
    exact (Option.some.inj h').symm

theorem last_definition_wins_witness :
    NewRulesEngine (.ok (sixRules ++ masterOffInfo :: [incomeLowInfo])) = .ok repeatedEngine ∧
      masterOffInfo.Name ∈ allRules ∧
      (∀ d' ∈ [incomeLowInfo], d'.Name ≠ masterOffInfo.Name) ∧
      repeatedEngine.masterRule = some ⟨"Master", .master ⟨masterOffInfo.Constraints⟩⟩ ∧
      mapGet repeatedEngine.rules "Income" =
        some ⟨"Income", .income ⟨incomeLowInfo.Constraints⟩⟩ ∧
      ∃ rule, createRule masterOffInfo = .ok rule ∧ rule.kind = masterOffInfo.Name ∧
        rule.constraints = masterOffInfo.Constraints ∧
        (masterOffInfo.Name = RuleMaster →
          repeatedEngine.masterRule = some ⟨masterOffInfo.Name, rule⟩) ∧
        (masterOffInfo.Name ≠ RuleMaster →
          mapGet repeatedEngine.rules masterOffInfo.Name = some ⟨masterOffInfo.Name, rule⟩ ∧
            ∀ h, (masterOffInfo.Name, h) ∈ repeatedEngine.rules →
              h = ⟨masterOffInfo.Name, rule⟩) ∧
        (repeatedEngine.rules.map Prod.fst).Nodup :=
  ⟨rfl, by decide, by decide, rfl, rfl,
    last_definition_wins sixRules [incomeLowInfo] masterOffInfo repeatedEngine rfl
      (by decide) (by decide)⟩

/-! ## The HTTP handler -/

theorem verifyLoop_status (deps : Deps) (phones : Except String ApprovedPhones)
    (applicant : Applicant) (order : List (String × RuleHandler)) (status : Status)
    (h : (verifyLoop deps phones applicant order).2 = .ok status) :
    status = StatusApproved ∨ status = StatusDeclined := by
  induction order with
  | nil =>
    simp only [verifyLoop, Except.ok.injEq] at h
    exact Or.inl h.symm
  | cons e rest ih =>
    obtain ⟨k, rh⟩ := e
    cases hh : rh.Handle deps phones applicant with
    | error f => simp [verifyLoop, hh] at h
    | ok b =>
      cases b with
      | false =>
        simp only [verifyLoop, hh, Except.ok.injEq] at h
        exact Or.inr h.symm
      | true =>
        simp only [verifyLoop, hh] at h
        exact ih h

/-- The only statuses `Verify` returns are "approved" and "declined". -/
theorem verify_status (deps : Deps) (phones : Except String ApprovedPhones)
    (re : RulesEngine) (applicant : Applicant) (order : List (String × RuleHandler))
    (status : Status) (h : re.Verify deps phones applicant order = .ok status) :
    status = StatusApproved ∨ status = StatusDeclined := by
  unfold RulesEngine.Verify RulesEngine.VerifyTrace at h
  cases hm : re.masterRule with
  | none => simp [hm] at h
  | some m =>
    simp only [hm] at h
    cases hh : m.Handle deps phones applicant with
    | error f => simp [hh] at h
    | ok b =>
      cases b with
      | true =>
        simp only [hh, Except.ok.injEq] at h
        exact Or.inl h.symm
      | false =>
        simp only [hh] at h
        exact verifyLoop_status deps phones applicant order status h

/-- C23: for a POST request whose body decodes to an applicant with `PoliticallyExposed`
present and for which `Verify` returns a Status, the handler answers 200 with that Status
in the body, whatever `AddApprovedPhone` returns, and calls `AddApprovedPhone` once, with
the applicant's phone number, when the Status is "approved" and not at all when it is
"declined". -/
theorem handler_status_is_verify (deps : Deps) (phones : Except String ApprovedPhones)
    (handler : CrediCardApprovalHandler) (applicant : Applicant)
    (order : List (String × RuleHandler)) (status : Status)
    (hpe : applicant.PoliticallyExposed.isSome = true)
    (hverify : handler.RulesEngine.Verify deps phones applicant order = .ok status) :
    handler.ServeHTTP deps phones (.ok applicant) "POST" order =
        (if status = StatusApproved then [applicant.PhoneNumber] else [],
          .ok ⟨200, some "application/json", .json status⟩) ∧
      (status = StatusApproved ∨ status = StatusDeclined) := by
  have hs := verify_status deps phones handler.RulesEngine applicant order status hverify
  refine ⟨?_, hs⟩
  have hvalid : validateInput applicant = true := hpe
  rcases hs with rfl | rfl
  · simp only [CrediCardApprovalHandler.ServeHTTP, hvalid, hverify]
    cases handler.DBManager applicant.PhoneNumber <;> simp
  · have hne : StatusDeclined ≠ StatusApproved := by decide
    simp [CrediCardApprovalHandler.ServeHTTP, hvalid, hverify, hne]

theorem handler_status_is_verify_witness :
    goodApplicant.PoliticallyExposed.isSome = true ∧
      downHandler.RulesEngine.Verify testDeps (.ok oneApprovedPhone) goodApplicant
        sixEngine.rules = .ok StatusApproved ∧
      downHandler.DBManager goodApplicant.PhoneNumber = .error "connection refused" ∧
      downHandler.ServeHTTP testDeps (.ok oneApprovedPhone) (.ok goodApplicant) "POST"
          sixEngine.rules =
        (if StatusApproved = StatusApproved then [goodApplicant.PhoneNumber] else [],
          .ok ⟨200, some "application/json", .json StatusApproved⟩) :=
  ⟨rfl, rfl, rfl,
    (handler_status_is_verify testDeps (.ok oneApprovedPhone) downHandler goodApplicant
      sixEngine.rules StatusApproved rfl rfl).1⟩

/-! ## Overrides beyond the range of `int` -/

/-- C11 (as stated, refuted): with `minimum_salary` the integral number 1e19, which no
`int` holds, and the conversion `int(v)` as on amd64, the Income evaluator returns true for
an applicant with income 1, although 1 > 1e19 is false. -/
theorem income_huge_minimum :
    mapGet hugeIncomeRule.constraints minSalaryConstraint = some (.float64 tenToNineteen) ∧
      tenToNineteen.intValue = some (10 ^ 19) ∧
      hugeIncomeRule.Execute amd64Deps smallApplicant = true ∧
      ¬ (smallApplicant.Income > 10 ^ 19) :=
  ⟨rfl, by decide, rfl, by decide⟩

/-- C12 (as stated, refuted): with `min_age_allowed` the integral number 1e19, which no
`int` holds, and the conversion `int(v)` as on amd64, the Age evaluator returns true for an
applicant of age 5, although 5 >= 1e19 is false. -/
theorem age_huge_minimum :
    mapGet hugeAgeRule.constraints minAgeConstraint = some (.float64 tenToNineteen) ∧
      tenToNineteen.intValue = some (10 ^ 19) ∧
      hugeAgeRule.Execute amd64Deps smallApplicant = true ∧
      ¬ (smallApplicant.Age ≥ 10 ^ 19) :=
  ⟨rfl, by decide, rfl, by decide⟩

/-- C13 (as stated, refuted): with `max_credit_card_count` the integral number 1e19, which
no `int` holds, and the conversion `int(v)` as on amd64, the CreditCards evaluator returns
false for an applicant with 2 cards and a "LOW" risk, although 2 <= 1e19 is true. -/
theorem cards_huge_maximum :
    mapGet hugeCardsRule.constraints maxCreditCardsConstraint =
        some (.float64 tenToNineteen) ∧
      tenToNineteen.intValue = some (10 ^ 19) ∧
      hugeCardsRule.Execute amd64Deps smallApplicant = false ∧
      smallApplicant.NumberOfCreditCards ≤ 10 ^ 19 ∧
      amd64Deps.CalculateCreditRisk smallApplicant.Age smallApplicant.NumberOfCreditCards =
        "LOW" :=
  ⟨rfl, by decide, rfl, by decide, rfl⟩

end Rules
